import Mathlib

/-!
# Wordle guesser / oracle (microkit tutorial): a shallow embedding

Sources embedded here:

* `include/wordle.h`  – the configuration macros and `enum character_state`;
* `wordle_server.c`   – `is_character_in_word`, `char_to_state`, `protected`;
* `client.c`          – `wordle_server_send`, `serial_send`, `print_table`, `init_table`,
                        `char_is_backspace`, `char_is_valid`, `add_char_to_table`.

Modelling conventions.

* The macros of `wordle.h` are the fields of a record `Header`; `wordle_h` holds the values
  the header really defines.  Statements that speak about other word lengths or slot widths
  instantiate the record differently, the code stays the same.
* `char` is the unsigned 8-bit type of the AArch64 / RISC-V ABIs Microkit runs on: a
  conversion to `char` is `% 256`, a conversion of `char` to `uint64_t` is the identity.
* `uint8_t`, `uint16_t`, `uint64_t` and `size_t` values are naturals, reduced `% 2 ^ w`
  wherever the C expression can leave the range.  A left shift of a `uint64_t` is reduced
  `% 2 ^ 64` (shift counts of 64 and more, undefined in C, never occur when
  `BYTES_PER_REGISTER * BITS_PER_CHAR ≤ 64`).
* `curr_row` and `curr_letter` are `int` in the source; they start at `0`, are only ever
  decremented under the guard `curr_letter > 0`, and are modelled as naturals.
* `table` is a map from (row, column) to cells.  Cells with `row ≥ NUM_TRIES` stand for the
  memory behind the array: C gives an access there no meaning, the model keeps it apart
  from the grid.  The embedding is the code as long as every access stays inside
  `table[NUM_TRIES][WORD_LENGTH]`; `feed_on_board` is the run of keystrokes cut off at the
  first access outside, and the invariants of the board are stated over it.
* The message registers of the IPC buffer are a map from register number to word, kept
  together with a trace of the `microkit_mr_set` calls.  `microkit_ppcall (0, _)` runs the
  oracle's `protected` on the same registers and is recorded in a trace as well.
* C strings are lists of bytes; `serial_send` reads its argument up to the first zero byte,
  writes it to the buffer `to_serial_server` and is recorded in a trace of strings sent.
-/

namespace Wordle

/-! ## `wordle.h` -/

/-- The object-like macros of `wordle.h`. -/
structure Header where
  NUM_TRIES : Nat
  WORD_LENGTH : Nat
  BYTES_PER_REGISTER : Nat
  BITS_PER_CHAR : Nat

/-- The values `wordle.h` defines. -/
def wordle_h : Header :=
  { NUM_TRIES := 5, WORD_LENGTH := 5, BYTES_PER_REGISTER := 8, BITS_PER_CHAR := 8 }

/-- Correct character, in the correct index of the word. -/
def CORRECT_PLACEMENT : Nat := 0
/-- Correct character, in the incorrect index of the word. -/
def INCORRECT_PLACEMENT : Nat := 1
/-- Character does not appear in the word. -/
def INCORRECT : Nat := 2

/-! ## The part of `microkit.h` the two programs use -/

/-- A message-info word: label and number of message registers. -/
structure microkit_msginfo where
  label : Nat
  count : Nat
deriving DecidableEq, Repr

def microkit_msginfo_new (label count : Nat) : microkit_msginfo :=
  { label := label, count := count }

/-- Message registers, and the trace of `microkit_mr_set` calls (oldest first). -/
structure MsgRegs where
  regs : Nat → Nat
  sets : List (Nat × Nat)

def microkit_mr_set (m : MsgRegs) (mr value : Nat) : MsgRegs :=
  { regs := fun k => if k = mr then value else m.regs k
    sets := m.sets ++ [(mr, value)] }

def microkit_mr_get (m : MsgRegs) (mr : Nat) : Nat :=
  m.regs mr

/-! ## Bytes and slots -/

/-- The conversion of an `int` to `char`. -/
def to_char (x : Int) : Nat :=
  (x % 256).toNat

/-- The word whose byte `j` (least significant first) is element `j` of the list. -/
def le_bytes : List Nat → Nat
  | [] => 0
  | b :: bs => b + 256 * le_bytes bs

/-- The bytes of a sequence of length `n` that the layout rule (byte `i` in slot `i / 8`, at
bit offset `(i % 8) * 8`) puts into slot `k`: those with index from `8 * k` up to, not
including, `min (8 * k + 8) n`. -/
def slot_bytes (bytes : Nat → Nat) (n k : Nat) : List Nat :=
  (List.range' (8 * k) (min (8 * k + 8) n - 8 * k)).map bytes

/-- Slot `k` of the frame the layout rule prescribes for a sequence of length `n`. -/
def frame_slot (bytes : Nat → Nat) (n k : Nat) : Nat :=
  le_bytes (slot_bytes bytes n k)

/-- The registers written between two states of the message registers, in order. -/
def written_slots (before after : MsgRegs) : List Nat :=
  (after.sets.drop before.sets.length).map Prod.fst

/-! ## `wordle_server.c` -/

/-- Element `i` of a `char word[WORD_LENGTH]` array given by its initialiser list
(elements without an initialiser are zero). -/
def wordAt (word : List Nat) (i : Nat) : Int :=
  ((word.getD i 0 : Nat) : Int)

/-- The loop of `is_character_in_word`, from index `i` on, `fuel` iterations left. -/
def is_character_in_word_from (word : List Nat) (ch : Int) : Nat → Nat → Bool
  | 0, _ => false
  | fuel + 1, i =>
    if wordAt word i = ch then true else is_character_in_word_from word ch fuel (i + 1)

def is_character_in_word (h : Header) (word : List Nat) (ch : Int) : Bool :=
  is_character_in_word_from word ch h.WORD_LENGTH 0

def char_to_state (h : Header) (ch : Int) (word : List Nat) (index : Nat) : Nat :=
  if ch = wordAt word index then CORRECT_PLACEMENT
  else if is_character_in_word h word ch then INCORRECT_PLACEMENT
  else INCORRECT

/-- Locals of the `for` loop of `protected`, the message registers, and the successive
values of `current_c` (a ghost trace, oldest first). -/
structure ProtectedLoop where
  reg_in : Nat
  reg_out : Nat
  m : MsgRegs
  seen : List Nat

/-- One iteration of the `for` loop in `protected`, loop index `i`. -/
def protected_body (h : Header) (word : List Nat) (st : ProtectedLoop) (i : Nat) :
    ProtectedLoop :=
  let mr := (i / 8) % 256
  let reg_in := if i % h.BYTES_PER_REGISTER = 0 then microkit_mr_get st.m mr else st.reg_in
  let current_c := (reg_in &&& 0xff) % 256
  let reg_in := reg_in >>> h.BITS_PER_CHAR
  let offset := ((i % h.BYTES_PER_REGISTER) * h.BITS_PER_CHAR) % 256
  let reg_out := st.reg_out ||| ((char_to_state h (current_c : Int) word i) <<< offset) % 2 ^ 64
  if (i + 1 % h.BYTES_PER_REGISTER) % 2 ^ 64 = 0 ∨ i + 1 = h.WORD_LENGTH then
    { reg_in := reg_in, reg_out := 0, m := microkit_mr_set st.m mr reg_out,
      seen := st.seen ++ [current_c] }
  else
    { reg_in := reg_in, reg_out := reg_out, m := st.m, seen := st.seen ++ [current_c] }

/-- The first `n` iterations of the `for` loop in `protected`. -/
def protected_loop (h : Header) (word : List Nat) (m : MsgRegs) (n : Nat) : ProtectedLoop :=
  (List.range n).foldl (protected_body h word) { reg_in := 0, reg_out := 0, m := m, seen := [] }

/-- The entry point `protected (ch, msginfo)`; the `default` branch only prints. -/
def «protected» (h : Header) (word : List Nat) (ch : Nat) (msginfo : microkit_msginfo)
    (m : MsgRegs) : microkit_msginfo × MsgRegs :=
  if ch = 0 then (msginfo, (protected_loop h word m h.WORD_LENGTH).m)
  else (msginfo, m)

/-! ## `client.c` -/

def INVALID_CHAR : Int := -1

structure wordle_char where
  ch : Int
  state : Nat
deriving DecidableEq, Repr

/-- The globals of the client (`table`, `curr_row`, `curr_letter`), its message registers,
and the trace of `microkit_ppcall` invocations (channel and message info, oldest first). -/
structure Client where
  table : Nat → Nat → wordle_char
  curr_row : Nat
  curr_letter : Nat
  m : MsgRegs
  ppcalls : List (Nat × microkit_msginfo)

/-- The assignment `table[row][letter].ch = v`. -/
def set_ch (t : Nat → Nat → wordle_char) (row letter : Nat) (v : Int) :
    Nat → Nat → wordle_char :=
  fun r c => if r = row ∧ c = letter then { t r c with ch := v } else t r c

/-- The assignment `table[row][letter].state = v`. -/
def set_state (t : Nat → Nat → wordle_char) (row letter : Nat) (v : Nat) :
    Nat → Nat → wordle_char :=
  fun r c => if r = row ∧ c = letter then { t r c with state := v } else t r c

/-- Locals of the first `for` loop of `wordle_server_send`, and the message registers. -/
structure SendLoop where
  value : Nat
  m : MsgRegs

/-- One iteration of the packing loop of `wordle_server_send`; `row` is the `ch` field of
`table[curr_row]`. -/
def send_body (h : Header) (row : Nat → Int) (st : SendLoop) (i : Nat) : SendLoop :=
  let current_c := to_char (row i)
  let offset := ((i % h.BYTES_PER_REGISTER) * h.BITS_PER_CHAR) % 256
  let value := st.value ||| (current_c <<< offset) % 2 ^ 64
  if i % h.BYTES_PER_REGISTER = h.BYTES_PER_REGISTER - 1 ∨ i + 1 = h.WORD_LENGTH then
    let mr := (i / 8) % 256
    { value := 0, m := microkit_mr_set st.m mr value }
  else
    { value := value, m := st.m }

/-- The first `n` iterations of the packing loop of `wordle_server_send`. -/
def send_loop (h : Header) (row : Nat → Int) (m : MsgRegs) (n : Nat) : SendLoop :=
  (List.range n).foldl (send_body h row) { value := 0, m := m }

/-- Locals of the second `for` loop of `wordle_server_send`, and the table. -/
structure RecvLoop where
  value : Nat
  table : Nat → Nat → wordle_char

/-- One iteration of the read-back loop of `wordle_server_send`. -/
def recv_body (h : Header) (m : MsgRegs) (curr_row : Nat) (st : RecvLoop) (i : Nat) :
    RecvLoop :=
  let value := if i % h.BYTES_PER_REGISTER = 0 then microkit_mr_get m ((i / 8) % 256)
               else st.value
  let current_state := (value &&& 0xff) % 256
  { value := value >>> h.BITS_PER_CHAR
    table := set_state st.table curr_row i current_state }

/-- The first `n` iterations of the read-back loop of `wordle_server_send`; `value` is what
the packing loop left in the local. -/
def recv_loop (h : Header) (m : MsgRegs) (curr_row : Nat) (value : Nat)
    (t : Nat → Nat → wordle_char) (n : Nat) : RecvLoop :=
  (List.range n).foldl (recv_body h m curr_row) { value := value, table := t }

/-- The count of registers `wordle_server_send` announces (`uint16_t regs_needed`). -/
def regs_needed (h : Header) : Nat :=
  ((h.WORD_LENGTH + (h.BYTES_PER_REGISTER - 1)) / h.BYTES_PER_REGISTER) % 65536

/-- The function `wordle_server_send`; `word` is the secret of the oracle that answers the
protected procedure call on channel 0. -/
def wordle_server_send (h : Header) (word : List Nat) (s : Client) : Client :=
  let req := microkit_msginfo_new 0 (regs_needed h)
  let packed := send_loop h (fun i => (s.table s.curr_row i).ch) s.m h.WORD_LENGTH
  let resp := «protected» h word 0 req packed.m
  let back := recv_loop h resp.2 s.curr_row packed.value s.table h.WORD_LENGTH
  { s with table := back.table, m := resp.2, ppcalls := s.ppcalls ++ [(0, req)] }

/-- The inner `for` loop of `init_table`, first `n` columns of row `row`. -/
def init_row (t : Nat → Nat → wordle_char) (row n : Nat) : Nat → Nat → wordle_char :=
  (List.range n).foldl
    (fun t letter => set_state (set_ch t row letter INVALID_CHAR) row letter INCORRECT) t

def init_table (h : Header) (s : Client) : Client :=
  { s with
    table := (List.range h.NUM_TRIES).foldl (fun t row => init_row t row h.WORD_LENGTH) s.table }

def char_is_backspace (ch : Int) : Bool :=
  ch = 0x7f

def char_is_valid (h : Header) (s : Client) (ch : Int) : Bool :=
  ((ch ≥ 97 ∧ ch ≤ 122) ∨ (ch ≥ 65 ∧ ch ≤ 90)) ∧ s.curr_letter ≠ h.WORD_LENGTH

/-- The function `add_char_to_table`; `c` is the byte received (`'\r'` is 13, `' '` is 32). -/
def add_char_to_table (h : Header) (word : List Nat) (s : Client) (c : Nat) : Client :=
  let s1 :=
    if char_is_backspace (c : Int) then
      if s.curr_letter > 0 then
        { s with curr_letter := s.curr_letter - 1
                 table := set_ch s.table s.curr_row (s.curr_letter - 1) INVALID_CHAR }
      else s
    else if c ≠ 13 ∧ c ≠ 32 ∧ s.curr_letter ≠ h.WORD_LENGTH then
      { s with table := set_ch s.table s.curr_row s.curr_letter (c : Int)
               curr_letter := s.curr_letter + 1 }
    else s
  if c = 13 ∧ s1.curr_letter = h.WORD_LENGTH then
    let s2 := wordle_server_send h word s1
    { s2 with curr_row := s2.curr_row + 1, curr_letter := 0 }
  else s1

/-- The client as the program starts it: the statics are zero, no call has been made, and
`init` has run `init_table`. -/
def boot (h : Header) : Client :=
  init_table h
    { table := fun _ _ => { ch := 0, state := 0 }
      curr_row := 0
      curr_letter := 0
      m := { regs := fun _ => 0, sets := [] }
      ppcalls := [] }

/-- Feed a sequence of received bytes to `add_char_to_table`, one `notified` each. -/
def feed (h : Header) (word : List Nat) (s : Client) (keys : List Nat) : Client :=
  keys.foldl (add_char_to_table h word) s

/-- The secret `wordle_server.c` is compiled with: "hello". -/
def word : List Nat := [104, 101, 108, 108, 111]

/-- The header of `wordle.h` with `WORD_LENGTH` redefined to `n`. -/
def with_word_length (n : Nat) : Header :=
  { wordle_h with WORD_LENGTH := n }

/-- The header of `wordle.h` with `WORD_LENGTH` redefined to `n` and `BYTES_PER_REGISTER` to
`b`. -/
def with_slot_bytes (n b : Nat) : Header :=
  { wordle_h with WORD_LENGTH := n, BYTES_PER_REGISTER := b }

/-- The keystrokes "hello", Enter, five times over (as many as `NUM_TRIES`), followed by
"hello" without Enter. -/
def full_board_keys : List Nat :=
  (List.replicate 5 [104, 101, 108, 108, 111, 13]).flatten ++ [104, 101, 108, 108, 111]

/-- The code of an ASCII letter, `a`-`z` or `A`-`Z`. -/
def is_letter (c : Int) : Prop :=
  (97 ≤ c ∧ c ≤ 122) ∨ (65 ≤ c ∧ c ≤ 90)

instance (c : Int) : Decidable (is_letter c) := by
  unfold is_letter; infer_instance

/-- Message registers all zero, nothing written yet. -/
def no_regs : MsgRegs :=
  { regs := fun _ => 0, sets := [] }

/-- The header of `wordle.h` with `WORD_LENGTH` redefined to 9. -/
def nine_h : Header :=
  with_word_length 9

/-- The registers after the packing loop of `wordle_server_send` has packed the row
"zzzzzzzzz" under `WORD_LENGTH` 9, starting from registers all zero. -/
def nine_z_request : MsgRegs :=
  (send_loop nine_h (fun _ => 122) no_regs 9).m

/-- The registers after `protected (0, _)` has answered `nine_z_request`, the secret being
`char word[9] = { 'h', 'e', 'l', 'l', 'o' }`. -/
def nine_z_reply : MsgRegs :=
  («protected» nine_h word 0 (microkit_msginfo_new 0 (regs_needed nine_h)) nine_z_request).2

/-- The registers after the packing loop of `wordle_server_send` has packed nine bytes of
value `INCORRECT` under `WORD_LENGTH` 9, starting from registers all zero. -/
def nine_incorrect_frame : MsgRegs :=
  (send_loop nine_h (fun _ => (INCORRECT : Int)) no_regs 9).m

/-! ## `client.c`: `serial_send` and `print_table` -/

def MOVE_CURSOR_UP : List Nat := [27, 91, 53, 65]

def CLEAR_TERMINAL_BELOW_CURSOR : List Nat := [27, 91, 48, 74]

/-- The client together with its serial side: the buffer `to_serial_server`, the channels
notified, the strings given to `microkit_dbg_puts`, and the strings handed to `serial_send`
(a ghost trace, oldest first). -/
structure Terminal where
  client : Client
  to_serial_server : Nat → Nat
  notifications : List Nat
  dbg : List String
  sent : List (List Nat)

/-- The function `serial_send`; `str` is the `char` array it is given, read up to the first
zero byte. -/
def serial_send (w : Terminal) (str : List Nat) : Terminal :=
  let text := str.takeWhile fun b => b ≠ 0
  { w with
    to_serial_server := fun i =>
      if i < text.length then text.getD i 0
      else if i = text.length then 0
      else w.to_serial_server i
    notifications := w.notifications ++ [2]
    sent := w.sent ++ [text] }

def microkit_dbg_puts (w : Terminal) (msg : String) : Terminal :=
  { w with dbg := w.dbg ++ [msg] }

/-- The body of the inner `for` loop of `print_table`. -/
def print_cell (w : Terminal) (row letter : Nat) : Terminal :=
  let w := serial_send w [91]
  let state := (w.client.table row letter).state
  let ch := (w.client.table row letter).ch
  let w :=
    if ch ≠ INVALID_CHAR then
      let w :=
        if state = INCORRECT then w
        else if state = CORRECT_PLACEMENT then serial_send w [27, 91, 51, 50, 109]
        else if state = INCORRECT_PLACEMENT then serial_send w [27, 91, 51, 51, 109]
        else microkit_dbg_puts w "CLIENT|ERROR: unexpected character state\n"
      let w := serial_send w [to_char ch, 0]
      serial_send w [27, 91, 48, 109]
    else serial_send w [32]
  serial_send w [93, 32]

/-- The first `n` iterations of the inner `for` loop of `print_table`. -/
def print_cells (w : Terminal) (row n : Nat) : Terminal :=
  (List.range n).foldl (fun w letter => print_cell w row letter) w

/-- The body of the outer `for` loop of `print_table`. -/
def print_row (h : Header) (w : Terminal) (row : Nat) : Terminal :=
  serial_send (print_cells w row h.WORD_LENGTH) [10]

/-- The first `n` iterations of the outer `for` loop of `print_table`. -/
def print_rows (h : Header) (w : Terminal) (n : Nat) : Terminal :=
  (List.range n).foldl (print_row h) w

def print_table (h : Header) (clear_terminal : Bool) (w : Terminal) : Terminal :=
  let w :=
    if clear_terminal then serial_send (serial_send w MOVE_CURSOR_UP) CLEAR_TERMINAL_BELOW_CURSOR
    else w
  print_rows h w h.NUM_TRIES

/-- The strings handed to `serial_send` between two states of the terminal, in order. -/
def printed (before after : Terminal) : List (List Nat) :=
  after.sent.drop before.sent.length

/-- The strings one cell is rendered as: bracket, colour by state, character, colour reset,
closing bracket; a blank between the brackets for an empty cell. -/
def cell_strings (c : wordle_char) : List (List Nat) :=
  [[91]] ++
  (if c.ch ≠ INVALID_CHAR then
    (if c.state = INCORRECT then []
     else if c.state = CORRECT_PLACEMENT then [[27, 91, 51, 50, 109]]
     else if c.state = INCORRECT_PLACEMENT then [[27, 91, 51, 51, 109]]
     else []) ++
    [[to_char c.ch, 0].takeWhile fun b => b ≠ 0] ++ [[27, 91, 48, 109]]
   else [[32]]) ++
  [[93, 32]]

/-- The strings the first `n` cells of row `row` are rendered as. -/
def cells_strings (t : Nat → Nat → wordle_char) (row n : Nat) : List (List Nat) :=
  ((List.range n).map fun letter => cell_strings (t row letter)).flatten

/-- The strings the first `n` rows are rendered as, each followed by a newline. -/
def rows_strings (h : Header) (t : Nat → Nat → wordle_char) (n : Nat) : List (List Nat) :=
  ((List.range n).map fun row => cells_strings t row h.WORD_LENGTH ++ [[10]]).flatten

/-- The strings the board is rendered as, after the two clearing sequences if asked for. -/
def table_strings (h : Header) (t : Nat → Nat → wordle_char) (clear_terminal : Bool) :
    List (List Nat) :=
  (if clear_terminal then [MOVE_CURSOR_UP, CLEAR_TERMINAL_BELOW_CURSOR] else []) ++
    rows_strings h t h.NUM_TRIES

/-- A terminal around a client: empty buffer, nothing notified, printed or sent yet. -/
def terminal_of (s : Client) : Terminal :=
  { client := s, to_serial_server := fun _ => 0, notifications := [], dbg := [], sent := [] }

/-- The registers after the packing loop of `wordle_server_send` has packed `guess` under
`WORD_LENGTH` `n`, starting from the registers `m`. -/
def request_regs (n : Nat) (guess : List Nat) (m : MsgRegs) : MsgRegs :=
  (send_loop (with_word_length n) (fun i => ((guess.getD i 0 : Nat) : Int)) m n).m

/-- The registers after `protected (0, _)` has answered `request_regs n guess m`. -/
def reply_regs (n : Nat) (guess secret : List Nat) (m : MsgRegs) : MsgRegs :=
  («protected» (with_word_length n) secret 0
    (microkit_msginfo_new 0 (regs_needed (with_word_length n))) (request_regs n guess m)).2

/-! ## Keystrokes inside and outside the board -/

/-- The keystrokes on which `add_char_to_table` reads or writes `table[curr_row]`: a
Backspace that erases (`table[curr_row][curr_letter - 1]`), a byte that is stored
(`table[curr_row][curr_letter]`), an Enter that submits (`table[curr_row][0 ..
WORD_LENGTH - 1]`, in both loops of `wordle_server_send`). -/
def accesses_table (h : Header) (s : Client) (c : Nat) : Prop :=
  (c = 127 ∧ 0 < s.curr_letter) ∨
  (c ≠ 127 ∧ c ≠ 13 ∧ c ≠ 32 ∧ s.curr_letter ≠ h.WORD_LENGTH) ∨
  (c = 13 ∧ s.curr_letter = h.WORD_LENGTH)

instance (h : Header) (s : Client) (c : Nat) : Decidable (accesses_table h s c) := by
  unfold accesses_table; infer_instance

/-- A keystroke whose access lies outside `table[NUM_TRIES][WORD_LENGTH]`: the row index
is `NUM_TRIES` or more, or the column is past `WORD_LENGTH`. -/
def out_of_bounds (h : Header) (s : Client) (c : Nat) : Prop :=
  accesses_table h s c ∧ (h.NUM_TRIES ≤ s.curr_row ∨ h.WORD_LENGTH < s.curr_letter)

instance (h : Header) (s : Client) (c : Nat) : Decidable (out_of_bounds h s c) := by
  unfold out_of_bounds; infer_instance

/-- The run of `feed` as far as C gives it a meaning: `none` from the first keystroke on
whose access lies outside the array, otherwise the state `feed` computes. -/
def feed_on_board (h : Header) (word : List Nat) : Client → List Nat → Option Client
  | s, [] => some s
  | s, c :: cs =>
    if out_of_bounds h s c then none
    else feed_on_board h word (add_char_to_table h word s c) cs

/-! ## `char_to_state` -/

theorem is_character_in_word_from_iff (word : List Nat) (ch : Int) (fuel i : Nat) :
    is_character_in_word_from word ch fuel i = true ↔
      ∃ j, i ≤ j ∧ j < i + fuel ∧ wordAt word j = ch := by
  induction fuel generalizing i with
  | zero =>
    simp only [is_character_in_word_from, Bool.false_eq_true, false_iff]
    rintro ⟨j, h1, h2, _⟩
    omega
  | succ fuel ih =>
    unfold is_character_in_word_from
    by_cases hc : wordAt word i = ch
    · simp only [hc, if_true, true_iff]
      exact ⟨i, le_refl _, by omega, hc⟩
    · simp only [hc, if_false, ih]
      constructor
      · rintro ⟨j, h1, h2, h3⟩
        exact ⟨j, by omega, by omega, h3⟩
      · rintro ⟨j, h1, h2, h3⟩
        have hne : j ≠ i := fun e => hc (e ▸ h3)
        exact ⟨j, by omega, by omega, h3⟩

theorem is_character_in_word_iff (h : Header) (word : List Nat) (ch : Int) :
    is_character_in_word h word ch = true ↔ ∃ j, j < h.WORD_LENGTH ∧ wordAt word j = ch := by
  unfold is_character_in_word
  rw [is_character_in_word_from_iff]
  constructor
  · rintro ⟨j, _, h2, h3⟩
    exact ⟨j, by omega, h3⟩
  · rintro ⟨j, h2, h3⟩
    exact ⟨j, Nat.zero_le _, by omega, h3⟩

/-- C2: for a secret of `WORD_LENGTH` characters, any `ch` and any position
`p < WORD_LENGTH`, `char_to_state` returns `CORRECT_PLACEMENT` exactly when `ch` equals
`secret[p]`, `INCORRECT_PLACEMENT` exactly when it does not but `ch` occurs at some index
of the secret, and `INCORRECT` exactly when `ch` occurs nowhere in the secret. -/
theorem char_to_state_classifies (h : Header) (secret : List Nat) (ch : Int) (p : Nat)
    (_hlen : secret.length = h.WORD_LENGTH) (hp : p < h.WORD_LENGTH) :
    (char_to_state h ch secret p = CORRECT_PLACEMENT ↔ ch = wordAt secret p) ∧
    (char_to_state h ch secret p = INCORRECT_PLACEMENT ↔
      ch ≠ wordAt secret p ∧ ∃ j, j < h.WORD_LENGTH ∧ wordAt secret j = ch) ∧
    (char_to_state h ch secret p = INCORRECT ↔
      ¬ ∃ j, j < h.WORD_LENGTH ∧ wordAt secret j = ch) := by
  have hin := is_character_in_word_iff h secret ch
  unfold char_to_state
  by_cases h1 : ch = wordAt secret p
  · have hex : ∃ j, j < h.WORD_LENGTH ∧ wordAt secret j = ch := ⟨p, hp, h1.symm⟩
    simp only [if_pos h1, CORRECT_PLACEMENT, INCORRECT_PLACEMENT, INCORRECT]
    refine ⟨by simp [h1], ?_, ?_⟩
    · constructor
      · intro hc; exact absurd hc (by decide)
      · rintro ⟨hc, _⟩; exact absurd h1 hc
    · constructor
      · intro hc; exact absurd hc (by decide)
      · intro hc; exact absurd hex hc
  · by_cases h2 : is_character_in_word h secret ch = true
    · have hex := hin.mp h2
      simp only [if_neg h1, if_pos h2, CORRECT_PLACEMENT, INCORRECT_PLACEMENT, INCORRECT]
      refine ⟨?_, ?_, ?_⟩
      · constructor
        · intro hc; exact absurd hc (by decide)
        · intro hc; exact absurd hc h1
      · constructor
        · intro _; exact ⟨h1, hex⟩
        · intro _; first | rfl | trivial
      · constructor
        · intro hc; exact absurd hc (by decide)
        · intro hc; exact absurd hex hc
    · have hex : ¬ ∃ j, j < h.WORD_LENGTH ∧ wordAt secret j = ch := fun e => h2 (hin.mpr e)
      simp only [if_neg h1, if_neg h2, CORRECT_PLACEMENT, INCORRECT_PLACEMENT, INCORRECT]
      refine ⟨?_, ?_, ?_⟩
      · constructor
        · intro hc; exact absurd hc (by decide)
        · intro hc; exact absurd hc h1
      · constructor
        · intro hc; exact absurd hc (by decide)
        · rintro ⟨_, hc⟩; exact absurd hc hex
      · constructor
        · intro _; exact hex
        · intro _; first | rfl | trivial

/-- C2, on the secret "hello": `'o'` at position 0 occurs elsewhere in the secret and is
classified `INCORRECT_PLACEMENT`; `('h', 0)` and `('l', 3)` are `CORRECT_PLACEMENT` and
`('z', 0)` is `INCORRECT`. -/
theorem char_to_state_classifies_witness :
    word.length = wordle_h.WORD_LENGTH ∧ 0 < wordle_h.WORD_LENGTH ∧
    char_to_state wordle_h 111 word 0 = INCORRECT_PLACEMENT ∧
    char_to_state wordle_h 104 word 0 = CORRECT_PLACEMENT ∧
    char_to_state wordle_h 122 word 0 = INCORRECT ∧
    char_to_state wordle_h 108 word 3 = CORRECT_PLACEMENT :=
  ⟨by decide, by decide,
   (char_to_state_classifies wordle_h word 111 0 (by decide) (by decide)).2.1.mpr
     ⟨by decide, 4, by decide, by decide⟩,
   (char_to_state_classifies wordle_h word 104 0 (by decide) (by decide)).1.mpr (by decide),
   (char_to_state_classifies wordle_h word 122 0 (by decide) (by decide)).2.2.mpr (by decide),
   (char_to_state_classifies wordle_h word 108 3 (by decide) (by decide)).1.mpr (by decide)⟩

/-! ## `add_char_to_table`: keystrokes that do not submit -/

theorem set_ch_state (t : Nat → Nat → wordle_char) (row letter : Nat) (v : Int) (r k : Nat) :
    (set_ch t row letter v r k).state = (t r k).state := by
  unfold set_ch
  split <;> rfl

theorem set_ch_ch_same (t : Nat → Nat → wordle_char) (row letter : Nat) (v : Int) :
    (set_ch t row letter v row letter).ch = v := by
  simp [set_ch]

theorem set_ch_ch_other (t : Nat → Nat → wordle_char) (row letter : Nat) (v : Int) (r k : Nat)
    (hne : ¬ (r = row ∧ k = letter)) : (set_ch t row letter v r k).ch = (t r k).ch := by
  simp [set_ch, hne]

theorem set_state_ch (t : Nat → Nat → wordle_char) (row letter v r k : Nat) :
    (set_state t row letter v r k).ch = (t r k).ch := by
  unfold set_state
  split <;> rfl

theorem set_state_state_same (t : Nat → Nat → wordle_char) (row letter v : Nat) :
    (set_state t row letter v row letter).state = v := by
  simp [set_state]

theorem set_state_state_other (t : Nat → Nat → wordle_char) (row letter v r k : Nat)
    (hne : ¬ (r = row ∧ k = letter)) : (set_state t row letter v r k).state = (t r k).state := by
  simp [set_state, hne]

/-! ## Bytes in a 64-bit word -/

theorem to_char_lt (x : Int) : to_char x < 256 := by
  unfold to_char
  omega

theorem to_char_cast (c : Nat) (hc : c < 256) : to_char (c : Int) = c := by
  unfold to_char
  omega

theorem le_bytes_lt (l : List Nat) (hl : ∀ b ∈ l, b < 256) : le_bytes l < 256 ^ l.length := by
  induction l with
  | nil => simp [le_bytes]
  | cons b bs ih =>
    have hb := hl b (List.mem_cons_self _ _)
    have := ih (fun x hx => hl x (List.mem_cons_of_mem _ hx))
    simp only [le_bytes, List.length_cons, pow_succ]
    omega

theorem le_bytes_append (l : List Nat) (c : Nat) :
    le_bytes (l ++ [c]) = le_bytes l + c * 256 ^ l.length := by
  induction l with
  | nil => simp [le_bytes]
  | cons b bs ih =>
    rw [List.cons_append]
    simp only [le_bytes, ih, List.length_cons, pow_succ]
    ring

theorem shl_byte (c j : Nat) (hc : c < 256) (hj : j < 8) :
    (c <<< (j * 8 % 256)) % 2 ^ 64 = c * 256 ^ j := by
  have h1 : j * 8 % 256 = 8 * j := by omega
  rw [h1, Nat.shiftLeft_eq, pow_mul]
  apply Nat.mod_eq_of_lt
  have : (2 ^ 8) ^ j ≤ (2 ^ 8) ^ 7 := Nat.pow_le_pow_right (by norm_num) (by omega)
  calc c * (2 ^ 8) ^ j ≤ 255 * (2 ^ 8) ^ 7 := Nat.mul_le_mul (by omega) this
    _ < 2 ^ 64 := by norm_num

theorem or_byte (v c j : Nat) (hv : v < 256 ^ j) : v ||| c * 256 ^ j = v + c * 256 ^ j := by
  have h256 : (256 : Nat) ^ j = 2 ^ (8 * j) := by rw [pow_mul]; norm_num
  rw [h256] at hv ⊢
  rw [Nat.lor_comm, Nat.mul_comm c, ← Nat.mul_add_lt_is_or hv, Nat.add_comm]

theorem and_ff (x : Nat) : (x &&& 0xff) % 256 = x % 256 := by
  have : x &&& 0xff = x % 256 := Nat.and_pow_two_sub_one_eq_mod x 8
  rw [this, Nat.mod_mod]

theorem shr_8 (x : Nat) : x >>> 8 = x / 256 := by
  rw [Nat.shiftRight_eq_div_pow]

/-- Appending byte `c` at bit offset `8 * j` to a word that holds `j` bytes. -/
theorem punch_in (bytes : Nat → Nat) (hb : ∀ i, bytes i < 256) (s j : Nat) (hj : j < 8) :
    le_bytes ((List.range' s j).map bytes) ||| (bytes (s + j) <<< (j * 8 % 256)) % 2 ^ 64
      = le_bytes ((List.range' s (j + 1)).map bytes) := by
  have hlt : le_bytes ((List.range' s j).map bytes) < 256 ^ j := by
    have := le_bytes_lt ((List.range' s j).map bytes) (by
      intro b hbm
      obtain ⟨i, _, rfl⟩ := List.mem_map.mp hbm
      exact hb i)
    simpa using this
  rw [shl_byte _ _ (hb _) hj, or_byte _ _ _ hlt, List.range'_concat, List.map_append,
    List.map_singleton, le_bytes_append]
  simp

/-- Taking the low byte off a word that holds the bytes `s, s + 1, ...`. -/
theorem shift_out (bytes : Nat → Nat) (hb : ∀ i, bytes i < 256) (s j : Nat) :
    (le_bytes ((List.range' s (j + 1)).map bytes) &&& 0xff) % 256 = bytes s ∧
    le_bytes ((List.range' s (j + 1)).map bytes) >>> 8
      = le_bytes ((List.range' (s + 1) j).map bytes) := by
  have h := hb s
  rw [and_ff, shr_8, List.range'_succ, List.map_cons]
  simp only [le_bytes]
  constructor <;> omega

/-! ## The packing loop of `wordle_server_send` -/

theorem send_loop_succ (h : Header) (row : Nat → Int) (m : MsgRegs) (n : Nat) :
    send_loop h row m (n + 1) = send_body h row (send_loop h row m n) n := by
  simp [send_loop, List.range_succ, List.foldl_append]

theorem frame_slot_full (bytes : Nat → Nat) (n k : Nat) (hk : 8 * k + 8 ≤ n) :
    frame_slot bytes n k = le_bytes ((List.range' (8 * k) 8).map bytes) := by
  unfold frame_slot slot_bytes
  have : min (8 * k + 8) n - 8 * k = 8 := by omega
  rw [this]

theorem frame_slot_last (bytes : Nat → Nat) (i : Nat) :
    frame_slot bytes (i + 1) (i / 8) = le_bytes ((List.range' (8 * (i / 8)) (i % 8 + 1)).map bytes) := by
  unfold frame_slot slot_bytes
  have : min (8 * (i / 8) + 8) (i + 1) - 8 * (i / 8) = i % 8 + 1 := by omega
  rw [this]

/-- One iteration of the packing loop, 8 bytes of 8 bits per register, entered with the
bytes of the current slot so far in `value`. -/
theorem send_body_step (h : Header) (hB : h.BYTES_PER_REGISTER = 8) (hC : h.BITS_PER_CHAR = 8)
    (row : Nat → Int) (st : SendLoop) (i : Nat) (hi : i < 2048)
    (hv : st.value = le_bytes ((List.range' (8 * (i / 8)) (i % 8)).map fun j => to_char (row j))) :
    send_body h row st i =
      if i % 8 = 7 ∨ i + 1 = h.WORD_LENGTH then
        { value := 0
          m := microkit_mr_set st.m (i / 8)
            (le_bytes ((List.range' (8 * (i / 8)) (i % 8 + 1)).map fun j => to_char (row j))) }
      else
        { value := le_bytes ((List.range' (8 * (i / 8)) (i % 8 + 1)).map fun j => to_char (row j))
          m := st.m } := by
  have hp := punch_in (fun j => to_char (row j)) (fun j => to_char_lt _) (8 * (i / 8)) (i % 8)
    (by omega)
  have hs : 8 * (i / 8) + i % 8 = i := by omega
  rw [hs] at hp
  have hmr : i / 8 % 256 = i / 8 := by omega
  unfold send_body
  simp only [hB, hC, hv, hp, hmr, Nat.reduceSub]

/-- The packing loop before its last iteration: the completed slots hold what the layout
rule prescribes, each written once in ascending order, and `value` holds the bytes of the
slot in progress. -/
theorem send_loop_before_last (h : Header) (hB : h.BYTES_PER_REGISTER = 8) (hC : h.BITS_PER_CHAR = 8)
    (row : Nat → Int) (m : MsgRegs) (hN : h.WORD_LENGTH ≤ 2048) (n : Nat)
    (hn : n < h.WORD_LENGTH) :
    (send_loop h row m n).value
      = le_bytes ((List.range' (8 * (n / 8)) (n % 8)).map fun j => to_char (row j)) ∧
    (∀ k, (send_loop h row m n).m.regs k
      = if k < n / 8 then frame_slot (fun j => to_char (row j)) h.WORD_LENGTH k else m.regs k) ∧
    (send_loop h row m n).m.sets
      = m.sets ++ (List.range (n / 8)).map
          fun k => (k, frame_slot (fun j => to_char (row j)) h.WORD_LENGTH k) := by
  induction n with
  | zero =>
    refine ⟨?_, ?_, ?_⟩
    · simp [send_loop, le_bytes]
    · intro k; simp [send_loop]
    · simp [send_loop]
  | succ n ih =>
    obtain ⟨ihv, ihr, ihs⟩ := ih (by omega)
    rw [send_loop_succ, send_body_step h hB hC row _ n (by omega) ihv]
    have hlast : ¬ n + 1 = h.WORD_LENGTH := by omega
    by_cases h7 : n % 8 = 7
    · have hd : (n + 1) / 8 = n / 8 + 1 := by omega
      have hm : (n + 1) % 8 = 0 := by omega
      have hfull := frame_slot_full (fun j => to_char (row j)) h.WORD_LENGTH (n / 8) (by omega)
      simp only [h7, true_or, if_true, hd, hm, microkit_mr_set]
      refine ⟨by simp [le_bytes], ?_, ?_⟩
      · intro k
        by_cases hk : k = n / 8
        · subst hk
          simp [hfull]
        · have := ihr k
          by_cases hk2 : k < n / 8
          · have hk3 : k < n / 8 + 1 := by omega
            simp only [hk, if_false, this, hk2, if_true, hk3]
          · have hk3 : ¬ k < n / 8 + 1 := by omega
            simp only [hk, if_false, this, hk2, hk3]
      · rw [ihs, List.range_succ, List.map_append, List.map_singleton, hfull, List.append_assoc]
    · have hd : (n + 1) / 8 = n / 8 := by omega
      have hm : (n + 1) % 8 = n % 8 + 1 := by omega
      simp only [h7, hlast, or_self, if_false, hd, hm]
      exact ⟨trivial, ihr, ihs⟩

/-- The whole packing loop, for a word of 1 to 2048 bytes: slots `0 .. (n + 7) / 8 - 1` hold
what the layout rule prescribes, each written once in ascending order, and `value` is
left at zero. -/
theorem send_loop_full (h : Header) (hB : h.BYTES_PER_REGISTER = 8) (hC : h.BITS_PER_CHAR = 8)
    (row : Nat → Int) (m : MsgRegs) (h1 : 1 ≤ h.WORD_LENGTH) (hN : h.WORD_LENGTH ≤ 2048) :
    (send_loop h row m h.WORD_LENGTH).value = 0 ∧
    (∀ k, (send_loop h row m h.WORD_LENGTH).m.regs k
      = if k < (h.WORD_LENGTH + 7) / 8 then frame_slot (fun j => to_char (row j)) h.WORD_LENGTH k
        else m.regs k) ∧
    (send_loop h row m h.WORD_LENGTH).m.sets
      = m.sets ++ (List.range ((h.WORD_LENGTH + 7) / 8)).map
          fun k => (k, frame_slot (fun j => to_char (row j)) h.WORD_LENGTH k) := by
  obtain ⟨n, hn⟩ : ∃ n, h.WORD_LENGTH = n + 1 := ⟨h.WORD_LENGTH - 1, by omega⟩
  obtain ⟨ihv, ihr, ihs⟩ := send_loop_before_last h hB hC row m hN n (by omega)
  have hd : (h.WORD_LENGTH + 7) / 8 = n / 8 + 1 := by omega
  have hlast := frame_slot_last (fun j => to_char (row j)) n
  rw [← hn] at hlast
  have hstep := send_body_step h hB hC row (send_loop h row m n) n (by omega) ihv
  rw [if_pos (Or.inr hn.symm)] at hstep
  have e : send_loop h row m h.WORD_LENGTH = send_body h row (send_loop h row m n) n := by
    rw [hn, send_loop_succ]
  rw [e, hstep, hd]
  simp only [microkit_mr_set]
  refine ⟨trivial, ?_, ?_⟩
  · intro k
    by_cases hk : k = n / 8
    · subst hk
      simp [hlast]
    · have := ihr k
      by_cases hk2 : k < n / 8
      · have hk3 : k < n / 8 + 1 := by omega
        simp only [hk, if_false, this, hk2, if_true, hk3]
      · have hk3 : ¬ k < n / 8 + 1 := by omega
        simp only [hk, if_false, this, hk2, hk3]
  · rw [ihs, List.range_succ, List.map_append, List.map_singleton, hlast, List.append_assoc]

/-! ## The loop of `protected` -/

theorem char_to_state_le (h : Header) (ch : Int) (secret : List Nat) (i : Nat) :
    char_to_state h ch secret i ≤ 2 := by
  unfold char_to_state CORRECT_PLACEMENT INCORRECT_PLACEMENT INCORRECT
  split
  · omega
  · split <;> omega

theorem protected_loop_succ (h : Header) (secret : List Nat) (m : MsgRegs) (n : Nat) :
    protected_loop h secret m (n + 1)
      = protected_body h secret (protected_loop h secret m n) n := by
  simp [protected_loop, List.range_succ, List.foldl_append]

/-- Reading byte `i` of a sequence of `n` bytes laid out by the layout rule: the register
is fetched at the start of a slot, otherwise the local already holds the rest of the
slot. -/
theorem decode_step (bytes : Nat → Nat) (hb : ∀ i, bytes i < 256) (n : Nat) (regs : Nat → Nat)
    (reg : Nat) (i : Nat) (hi : i < n)
    (hslot : regs (i / 8) = frame_slot bytes n (i / 8))
    (hin : i % 8 ≠ 0 →
      reg = le_bytes ((List.range' i (min (8 * (i / 8) + 8) n - i)).map bytes)) :
    ((if i % 8 = 0 then regs (i / 8) else reg) &&& 0xff) % 256 = bytes i ∧
    (if i % 8 = 0 then regs (i / 8) else reg) >>> 8
      = le_bytes ((List.range' (i + 1) (min (8 * (i / 8) + 8) n - (i + 1))).map bytes) := by
  have hcur : (if i % 8 = 0 then regs (i / 8) else reg)
      = le_bytes ((List.range' i ((min (8 * (i / 8) + 8) n - (i + 1)) + 1)).map bytes) := by
    have hc : min (8 * (i / 8) + 8) n - (i + 1) + 1 = min (8 * (i / 8) + 8) n - i := by omega
    rw [hc]
    by_cases h0 : i % 8 = 0
    · have hs : 8 * (i / 8) = i := by omega
      rw [if_pos h0, hslot]
      unfold frame_slot slot_bytes
      rw [hs]
    · rw [if_neg h0, hin h0]
  rw [hcur]
  exact shift_out bytes hb _ _

/-- One iteration of the loop of `protected`, 8 bytes of 8 bits per register, on registers
that hold a sequence laid out by the layout rule. -/
theorem protected_body_step (h : Header) (hB : h.BYTES_PER_REGISTER = 8)
    (hC : h.BITS_PER_CHAR = 8) (secret : List Nat) (hN : h.WORD_LENGTH ≤ 2048)
    (bytes : Nat → Nat) (hb : ∀ i, bytes i < 256) (st : ProtectedLoop) (i : Nat)
    (hi : i < h.WORD_LENGTH)
    (hslot : st.m.regs (i / 8) = frame_slot bytes h.WORD_LENGTH (i / 8))
    (hin : i % 8 ≠ 0 → st.reg_in
      = le_bytes ((List.range' i (min (8 * (i / 8) + 8) h.WORD_LENGTH - i)).map bytes)) :
    protected_body h secret st i =
      if i + 1 = h.WORD_LENGTH then
        { reg_in := le_bytes
            ((List.range' (i + 1) (min (8 * (i / 8) + 8) h.WORD_LENGTH - (i + 1))).map bytes)
          reg_out := 0
          m := microkit_mr_set st.m (i / 8)
            (st.reg_out |||
              (char_to_state h (bytes i : Int) secret i <<< (i % 8 * 8 % 256)) % 2 ^ 64)
          seen := st.seen ++ [bytes i] }
      else
        { reg_in := le_bytes
            ((List.range' (i + 1) (min (8 * (i / 8) + 8) h.WORD_LENGTH - (i + 1))).map bytes)
          reg_out := st.reg_out |||
            (char_to_state h (bytes i : Int) secret i <<< (i % 8 * 8 % 256)) % 2 ^ 64
          m := st.m
          seen := st.seen ++ [bytes i] } := by
  obtain ⟨hd1, hd2⟩ := decode_step bytes hb h.WORD_LENGTH st.m.regs st.reg_in i hi hslot hin
  have hmr : i / 8 % 256 = i / 8 := by omega
  have hnw : ¬ (i + 1 % 8) % 2 ^ 64 = 0 := by omega
  unfold protected_body
  simp only [hB, hC, hmr, microkit_mr_get, hd1, hd2, hnw, false_or]

/-- The loop of `protected` before its last iteration, on registers that hold `bytes` laid
out by the layout rule: no register has been written, the bytes seen are the first `n`
bytes in order, and, when the word fits one register, `reg_out` holds their states. -/
theorem protected_loop_before_last (h : Header) (hB : h.BYTES_PER_REGISTER = 8)
    (hC : h.BITS_PER_CHAR = 8) (secret : List Nat) (hN : h.WORD_LENGTH ≤ 2048)
    (bytes : Nat → Nat) (hb : ∀ i, bytes i < 256) (m : MsgRegs)
    (hm : ∀ k, k < (h.WORD_LENGTH + 7) / 8 → m.regs k = frame_slot bytes h.WORD_LENGTH k)
    (n : Nat) (hn : n < h.WORD_LENGTH) :
    (protected_loop h secret m n).m = m ∧
    (protected_loop h secret m n).seen = (List.range n).map bytes ∧
    (n % 8 ≠ 0 → (protected_loop h secret m n).reg_in
      = le_bytes ((List.range' n (min (8 * (n / 8) + 8) h.WORD_LENGTH - n)).map bytes)) ∧
    (h.WORD_LENGTH ≤ 8 → (protected_loop h secret m n).reg_out
      = le_bytes ((List.range' 0 n).map fun j => char_to_state h (bytes j : Int) secret j)) := by
  induction n with
  | zero =>
    refine ⟨rfl, rfl, fun h0 => absurd rfl h0, fun _ => ?_⟩
    simp [protected_loop, le_bytes]
  | succ n ih =>
    obtain ⟨ihm, ihs, ihi, iho⟩ := ih (by omega)
    have hstep := protected_body_step h hB hC secret hN bytes hb (protected_loop h secret m n) n
      (by omega) (by rw [ihm]; exact hm _ (by omega)) ihi
    rw [if_neg (by omega)] at hstep
    rw [protected_loop_succ, hstep]
    refine ⟨ihm, ?_, ?_, ?_⟩
    · simp only [ihs, List.range_succ, List.map_append, List.map_singleton]
    · intro h0
      have hd : (n + 1) / 8 = n / 8 := by omega
      simp only [hd]
    · intro h8
      have hp := punch_in (fun j => char_to_state h (bytes j : Int) secret j)
        (fun j => Nat.lt_of_le_of_lt (char_to_state_le h (bytes j : Int) secret j) (by norm_num)) 0 n (by omega)
      have hn8 : n % 8 = n := by omega
      simp only [Nat.zero_add] at hp
      simp only [iho h8, hn8, hp]

/-- The whole loop of `protected`, for a word of 1 to 2048 bytes, on registers that hold
`bytes` laid out by the layout rule: the bytes seen are exactly those bytes in order, and
exactly one register is written, the one of the last byte; when the word fits one register
that is register 0 and it receives the states of all bytes, laid out by the same rule. -/
theorem protected_loop_full (h : Header) (hB : h.BYTES_PER_REGISTER = 8)
    (hC : h.BITS_PER_CHAR = 8) (secret : List Nat) (h1 : 1 ≤ h.WORD_LENGTH)
    (hN : h.WORD_LENGTH ≤ 2048) (bytes : Nat → Nat) (hb : ∀ i, bytes i < 256) (m : MsgRegs)
    (hm : ∀ k, k < (h.WORD_LENGTH + 7) / 8 → m.regs k = frame_slot bytes h.WORD_LENGTH k) :
    (protected_loop h secret m h.WORD_LENGTH).seen = (List.range h.WORD_LENGTH).map bytes ∧
    (∃ v, (protected_loop h secret m h.WORD_LENGTH).m
        = microkit_mr_set m ((h.WORD_LENGTH - 1) / 8) v ∧
      (h.WORD_LENGTH ≤ 8 →
        v = frame_slot (fun j => char_to_state h (bytes j : Int) secret j) h.WORD_LENGTH 0)) := by
  obtain ⟨n, hn⟩ : ∃ n, h.WORD_LENGTH = n + 1 := ⟨h.WORD_LENGTH - 1, by omega⟩
  obtain ⟨ihm, ihs, ihi, iho⟩ := protected_loop_before_last h hB hC secret hN bytes hb m hm n (by omega)
  have hstep := protected_body_step h hB hC secret hN bytes hb (protected_loop h secret m n) n
    (by omega) (by rw [ihm]; exact hm _ (by omega)) ihi
  rw [if_pos hn.symm] at hstep
  have e : protected_loop h secret m h.WORD_LENGTH
      = protected_body h secret (protected_loop h secret m n) n := by
    rw [hn, protected_loop_succ]
  rw [e, hstep]
  refine ⟨?_, (protected_loop h secret m n).reg_out |||
    (char_to_state h (bytes n : Int) secret n <<< (n % 8 * 8 % 256)) % 2 ^ 64, ?_, ?_⟩
  · simp only [ihs, hn, List.range_succ, List.map_append, List.map_singleton]
  · have hd : (h.WORD_LENGTH - 1) / 8 = n / 8 := by rw [hn]; rfl
    simp only [ihm, hd]
  · intro h8
    have hp := punch_in (fun j => char_to_state h (bytes j : Int) secret j)
      (fun j => Nat.lt_of_le_of_lt (char_to_state_le h (bytes j : Int) secret j) (by norm_num)) 0 n (by omega)
    have hn8 : n % 8 = n := by omega
    have hfs := frame_slot_last (fun j => char_to_state h (bytes j : Int) secret j) n
    have hd0 : n / 8 = 0 := by omega
    rw [hd0, hn8, ← hn] at hfs
    simp only [Nat.zero_add] at hp
    simp only [iho h8, hn8, hp, hfs, Nat.mul_zero]
    rw [hn]

/-! ## The read-back loop of `wordle_server_send` -/

theorem recv_loop_succ (h : Header) (m : MsgRegs) (row value : Nat)
    (t : Nat → Nat → wordle_char) (n : Nat) :
    recv_loop h m row value t (n + 1)
      = recv_body h m row (recv_loop h m row value t n) n := by
  simp [recv_loop, List.range_succ, List.foldl_append]

/-- The read-back loop after `n` iterations, on registers that hold `states` laid out by
the layout rule: the first `n` cells of the row carry the first `n` states, nothing else
in the table has changed. -/
theorem recv_loop_upto (h : Header) (hB : h.BYTES_PER_REGISTER = 8)
    (hC : h.BITS_PER_CHAR = 8) (hN : h.WORD_LENGTH ≤ 2048)
    (states : Nat → Nat) (hb : ∀ i, states i < 256) (m : MsgRegs)
    (hm : ∀ k, k < (h.WORD_LENGTH + 7) / 8 → m.regs k = frame_slot states h.WORD_LENGTH k)
    (row value : Nat) (t : Nat → Nat → wordle_char) (n : Nat) (hn : n ≤ h.WORD_LENGTH) :
    (n % 8 ≠ 0 → (recv_loop h m row value t n).value
      = le_bytes ((List.range' n (min (8 * (n / 8) + 8) h.WORD_LENGTH - n)).map states)) ∧
    (∀ r k, ((recv_loop h m row value t n).table r k).ch = (t r k).ch) ∧
    (∀ r k, ((recv_loop h m row value t n).table r k).state
      = if r = row ∧ k < n then states k else (t r k).state) := by
  induction n with
  | zero =>
    refine ⟨fun h0 => absurd rfl h0, fun r k => rfl, fun r k => ?_⟩
    simp [recv_loop]
  | succ n ih =>
    obtain ⟨ihv, ihc, ihs⟩ := ih (by omega)
    obtain ⟨hd1, hd2⟩ := decode_step states hb h.WORD_LENGTH m.regs
      (recv_loop h m row value t n).value n (by omega) (hm _ (by omega)) ihv
    have hmr : n / 8 % 256 = n / 8 := by omega
    rw [recv_loop_succ]
    unfold recv_body
    simp only [hB, hC, hmr, microkit_mr_get, hd1, hd2]
    refine ⟨?_, ?_, ?_⟩
    · intro h0
      have hd : (n + 1) / 8 = n / 8 := by omega
      simp only [hd]
    · intro r k
      rw [set_state_ch, ihc]
    · intro r k
      by_cases hrk : r = row ∧ k = n
      · obtain ⟨rfl, rfl⟩ := hrk
        rw [set_state_state_same]
        simp
      · rw [set_state_state_other _ _ _ _ _ _ hrk, ihs]
        by_cases hr : r = row
        · have hk : k ≠ n := fun e => hrk ⟨hr, e⟩
          by_cases hk2 : k < n
          · have hk3 : k < n + 1 := by omega
            simp only [hr, hk2, hk3, and_self, if_true]
          · have hk3 : ¬ k < n + 1 := by omega
            simp only [hr, hk2, hk3, and_false, if_false]
        · simp only [hr, false_and, if_false]

/-! ## `wordle_server_send`, and Enter on a full row -/

/-- The call sequence of `wordle_server_send` for a word of 1 to 8 bytes, 8 bytes of 8 bits
per register: every cell of the current row receives the state the oracle computes for its
character, nothing else in the table changes, the cursor stays, and one call on channel 0
announcing one register is recorded. -/
theorem wordle_server_send_one_slot (h : Header) (hB : h.BYTES_PER_REGISTER = 8)
    (hC : h.BITS_PER_CHAR = 8) (h1 : 1 ≤ h.WORD_LENGTH) (h8 : h.WORD_LENGTH ≤ 8)
    (secret : List Nat) (s : Client) :
    (∀ r k, ((wordle_server_send h secret s).table r k).ch = (s.table r k).ch) ∧
    (∀ r k, ((wordle_server_send h secret s).table r k).state
      = if r = s.curr_row ∧ k < h.WORD_LENGTH then
          char_to_state h (to_char (s.table s.curr_row k).ch : Int) secret k
        else (s.table r k).state) ∧
    (wordle_server_send h secret s).curr_row = s.curr_row ∧
    (wordle_server_send h secret s).curr_letter = s.curr_letter ∧
    (wordle_server_send h secret s).ppcalls
      = s.ppcalls ++ [(0, microkit_msginfo_new 0 1)] := by
  have hN : h.WORD_LENGTH ≤ 2048 := by omega
  obtain ⟨_, hpr, _⟩ := send_loop_full h hB hC (fun i => (s.table s.curr_row i).ch) s.m h1 hN
  obtain ⟨_, v, hv, hv8⟩ := protected_loop_full h hB hC secret h1 hN
    (fun j => to_char (s.table s.curr_row j).ch) (fun j => to_char_lt _)
    (send_loop h (fun i => (s.table s.curr_row i).ch) s.m h.WORD_LENGTH).m
    (fun k hk => by rw [hpr k, if_pos hk])
  have hregs : ∀ k, k < (h.WORD_LENGTH + 7) / 8 →
      (protected_loop h secret
        (send_loop h (fun i => (s.table s.curr_row i).ch) s.m h.WORD_LENGTH).m
        h.WORD_LENGTH).m.regs k
      = frame_slot (fun j => char_to_state h (to_char (s.table s.curr_row j).ch : Int) secret j)
          h.WORD_LENGTH k := by
    intro k hk
    have hk0 : k = 0 := by omega
    have hd : (h.WORD_LENGTH - 1) / 8 = 0 := by omega
    rw [hv, hd, hk0, ← hv8 h8]
    simp [microkit_mr_set]
  obtain ⟨_, hc, hs⟩ := recv_loop_upto h hB hC hN
    (fun j => char_to_state h (to_char (s.table s.curr_row j).ch : Int) secret j)
    (fun j => Nat.lt_of_le_of_lt (char_to_state_le h _ secret j) (by norm_num))
    _ hregs s.curr_row
    (send_loop h (fun i => (s.table s.curr_row i).ch) s.m h.WORD_LENGTH).value s.table
    h.WORD_LENGTH (le_refl _)
  have hrn : regs_needed h = 1 := by
    unfold regs_needed
    rw [hB]
    omega
  refine ⟨?_, ?_, rfl, rfl, ?_⟩
  · intro r k
    exact hc r k
  · intro r k
    exact hs r k
  · simp only [wordle_server_send, hrn]

/-- C8: in a state with `curr_row < NUM_TRIES`, an ASCII letter `c` typed at a column below
`WORD_LENGTH` is written into `table[curr_row][curr_letter].ch`, the column grows by one,
and no other character, no state and not the row changes; typed at column `WORD_LENGTH` it
changes nothing at all. -/
theorem letter_transition (h : Header) (secret : List Nat) (s : Client) (c : Nat)
    (_hrow : s.curr_row < h.NUM_TRIES) (hc : is_letter (c : Int)) :
    (s.curr_letter < h.WORD_LENGTH →
      ((add_char_to_table h secret s c).table s.curr_row s.curr_letter).ch = (c : Int) ∧
      (add_char_to_table h secret s c).curr_letter = s.curr_letter + 1 ∧
      (∀ r k, ¬ (r = s.curr_row ∧ k = s.curr_letter) →
        ((add_char_to_table h secret s c).table r k).ch = (s.table r k).ch) ∧
      (∀ r k, ((add_char_to_table h secret s c).table r k).state = (s.table r k).state) ∧
      (add_char_to_table h secret s c).curr_row = s.curr_row) ∧
    (s.curr_letter = h.WORD_LENGTH → add_char_to_table h secret s c = s) := by
  have hbs : char_is_backspace (c : Int) = false := by
    unfold is_letter at hc
    simp only [char_is_backspace, decide_eq_false_iff_not]
    omega
  have h13 : c ≠ 13 := by unfold is_letter at hc; omega
  have h32 : c ≠ 32 := by unfold is_letter at hc; omega
  constructor
  · intro hcol
    have hne : s.curr_letter ≠ h.WORD_LENGTH := by omega
    simp only [add_char_to_table, hbs, Bool.false_eq_true, if_false, h13, h32, hne, ne_eq,
      not_false_eq_true, and_self, if_true, false_and]
    exact ⟨set_ch_ch_same _ _ _ _, trivial, fun r k hrk => set_ch_ch_other _ _ _ _ _ _ hrk,
      fun r k => set_ch_state _ _ _ _ _ _, trivial⟩
  · intro hcol
    simp [add_char_to_table, hbs, h13, hcol]

/-- C8, from the start state (row 0, column 0): the first letter lands in cell (0, 0) and
moves the column to 1; after five letters the column is 5 and a sixth letter is a no-op. -/
theorem letter_transition_witness :
    (boot wordle_h).curr_row < wordle_h.NUM_TRIES ∧ is_letter 104 ∧
    (boot wordle_h).curr_letter = 0 ∧
    (add_char_to_table wordle_h word (boot wordle_h) 104).curr_letter = 1 ∧
    ((add_char_to_table wordle_h word (boot wordle_h) 104).table 0 0).ch = 104 ∧
    (feed wordle_h word (boot wordle_h) [104, 101, 108, 108, 111]).curr_letter = 5 ∧
    add_char_to_table wordle_h word
        (feed wordle_h word (boot wordle_h) [104, 101, 108, 108, 111]) 120
      = feed wordle_h word (boot wordle_h) [104, 101, 108, 108, 111] :=
  ⟨by decide, by decide, by decide,
   ((letter_transition wordle_h word (boot wordle_h) 104 (by decide) (by decide)).1
      (by decide)).2.1,
   ((letter_transition wordle_h word (boot wordle_h) 104 (by decide) (by decide)).1
      (by decide)).1,
   by decide,
   (letter_transition wordle_h word (feed wordle_h word (boot wordle_h) [104, 101, 108, 108, 111])
      120 (by decide) (by decide)).2 (by decide)⟩

/-- C9: in a state with `curr_row < NUM_TRIES`, Backspace (0x7f) at a column above 0 moves
the column one back and resets the character of that cell to `INVALID_CHAR`; no other
character, no state, not the row, no message register changes and no call is made.  At
column 0 it changes nothing at all. -/
theorem backspace_transition (h : Header) (secret : List Nat) (s : Client)
    (_hrow : s.curr_row < h.NUM_TRIES) :
    (0 < s.curr_letter →
      (add_char_to_table h secret s 0x7f).curr_letter = s.curr_letter - 1 ∧
      ((add_char_to_table h secret s 0x7f).table s.curr_row (s.curr_letter - 1)).ch
        = INVALID_CHAR ∧
      (∀ r k, ¬ (r = s.curr_row ∧ k = s.curr_letter - 1) →
        ((add_char_to_table h secret s 0x7f).table r k).ch = (s.table r k).ch) ∧
      (∀ r k, ((add_char_to_table h secret s 0x7f).table r k).state = (s.table r k).state) ∧
      (add_char_to_table h secret s 0x7f).curr_row = s.curr_row ∧
      (add_char_to_table h secret s 0x7f).ppcalls = s.ppcalls ∧
      (add_char_to_table h secret s 0x7f).m = s.m) ∧
    (s.curr_letter = 0 → add_char_to_table h secret s 0x7f = s) := by
  have hbs : char_is_backspace ((0x7f : Nat) : Int) = true := by decide
  constructor
  · intro hcol
    simp only [add_char_to_table, hbs, if_true, hcol, gt_iff_lt, Nat.reduceEqDiff, false_and,
      if_false]
    exact ⟨trivial, set_ch_ch_same _ _ _ _, fun r k hrk => set_ch_ch_other _ _ _ _ _ _ hrk,
      fun r k => set_ch_state _ _ _ _ _ _, trivial, trivial, trivial⟩
  · intro hcol
    have hcol' : ¬ s.curr_letter > 0 := by omega
    simp only [add_char_to_table, hbs, if_true, hcol', if_false, Nat.reduceEqDiff, false_and]

/-- C9, after five letters in row 0: Backspace at column 5 gives column 4 and clears
cell 4; Backspace at column 0 of the start state changes nothing. -/
theorem backspace_transition_witness :
    (feed wordle_h word (boot wordle_h) [104, 101, 108, 108, 111]).curr_row
      < wordle_h.NUM_TRIES ∧
    (feed wordle_h word (boot wordle_h) [104, 101, 108, 108, 111]).curr_letter = 5 ∧
    (add_char_to_table wordle_h word
      (feed wordle_h word (boot wordle_h) [104, 101, 108, 108, 111]) 0x7f).curr_letter
        = 5 - 1 ∧
    ((add_char_to_table wordle_h word
      (feed wordle_h word (boot wordle_h) [104, 101, 108, 108, 111]) 0x7f).table 0 (5 - 1)).ch
        = INVALID_CHAR ∧
    add_char_to_table wordle_h word (boot wordle_h) 0x7f = boot wordle_h :=
  ⟨by decide, by decide,
   ((backspace_transition wordle_h word
      (feed wordle_h word (boot wordle_h) [104, 101, 108, 108, 111]) (by decide)).1
      (by decide)).1,
   ((backspace_transition wordle_h word
      (feed wordle_h word (boot wordle_h) [104, 101, 108, 108, 111]) (by decide)).1
      (by decide)).2.1,
   (backspace_transition wordle_h word (boot wordle_h) (by decide)).2 (by decide)⟩

/-- C10: Enter (carriage return, 13) at a column other than `WORD_LENGTH` returns the state
it was given: board, cursor, message registers with their write trace and the trace of
calls are all unchanged, so `wordle_server_send` did not run. -/
theorem enter_on_incomplete_row (h : Header) (secret : List Nat) (s : Client)
    (hcol : s.curr_letter ≠ h.WORD_LENGTH) :
    add_char_to_table h secret s 13 = s ∧
    (add_char_to_table h secret s 13).ppcalls = s.ppcalls ∧
    (add_char_to_table h secret s 13).m.sets = s.m.sets := by
  have hbs : char_is_backspace ((13 : Nat) : Int) = false := by decide
  have e : add_char_to_table h secret s 13 = s := by
    simp only [add_char_to_table, hbs, Bool.false_eq_true, if_false, ne_eq, not_true_eq_false,
      false_and, hcol, and_false]
  rw [e]
  exact ⟨rfl, rfl, rfl⟩

/-- C10, after three letters in row 0: Enter at column 3 changes nothing. -/
theorem enter_on_incomplete_row_witness :
    (feed wordle_h word (boot wordle_h) [104, 101, 108]).curr_letter ≠ wordle_h.WORD_LENGTH ∧
    add_char_to_table wordle_h word (feed wordle_h word (boot wordle_h) [104, 101, 108]) 13
      = feed wordle_h word (boot wordle_h) [104, 101, 108] :=
  ⟨by decide,
   (enter_on_incomplete_row wordle_h word (feed wordle_h word (boot wordle_h) [104, 101, 108])
      (by decide)).1⟩

/-- C7 at the digit `'1'` (0x31), typed in the start state: the byte is no letter, not
Backspace and not Enter, and `char_is_valid` rejects it, yet `add_char_to_table` stores it
in cell (0, 0) and moves the column from 0 to 1. -/
theorem digit_is_stored :
    ¬ is_letter 0x31 ∧ (0x31 : Nat) ≠ 0x7f ∧ (0x31 : Nat) ≠ 13 ∧
    char_is_valid wordle_h (boot wordle_h) 0x31 = false ∧
    ((boot wordle_h).table 0 0).ch = INVALID_CHAR ∧
    (boot wordle_h).curr_letter = 0 ∧
    ((add_char_to_table wordle_h word (boot wordle_h) 0x31).table 0 0).ch = 0x31 ∧
    (add_char_to_table wordle_h word (boot wordle_h) 0x31).curr_letter = 1 := by
  decide

set_option maxRecDepth 100000 in
/-- C6 on the keystrokes "hello", Enter, five times over, then "hello" once more: the
cursor stands at row `NUM_TRIES`, column `WORD_LENGTH`, five calls have been made; the next
Enter makes a sixth call and moves the cursor to row `NUM_TRIES + 1`, column 0. -/
theorem sixth_enter_is_submitted :
    (feed wordle_h word (boot wordle_h) full_board_keys).curr_row = wordle_h.NUM_TRIES ∧
    (feed wordle_h word (boot wordle_h) full_board_keys).curr_letter = wordle_h.WORD_LENGTH ∧
    (feed wordle_h word (boot wordle_h) full_board_keys).ppcalls.length = 5 ∧
    (add_char_to_table wordle_h word
      (feed wordle_h word (boot wordle_h) full_board_keys) 13).ppcalls.length = 6 ∧
    (add_char_to_table wordle_h word
      (feed wordle_h word (boot wordle_h) full_board_keys) 13).curr_row
        = wordle_h.NUM_TRIES + 1 ∧
    (add_char_to_table wordle_h word
      (feed wordle_h word (boot wordle_h) full_board_keys) 13).curr_letter = 0 := by
  refine ⟨?_, ?_, ?_, ?_, ?_, ?_⟩ <;> decide

/-- C1: in a state of the program as `wordle.h` configures it, with the cursor at
(`row`, `WORD_LENGTH`), `row < NUM_TRIES`, and ASCII letters in the current row, Enter
(with `protected (0, _)` of the oracle answering the call) leaves every cell's character
unchanged, sets the state of cell `i` of the row to `char_to_state` of its character at
position `i`, leaves the states of all other rows unchanged, moves the cursor to
(`row + 1`, 0), and records exactly one call. -/
theorem enter_on_full_row (secret : List Nat) (s : Client)
    (_hrow : s.curr_row < wordle_h.NUM_TRIES) (hcol : s.curr_letter = wordle_h.WORD_LENGTH)
    (hletters : ∀ i, i < wordle_h.WORD_LENGTH → is_letter (s.table s.curr_row i).ch) :
    (∀ r k, ((add_char_to_table wordle_h secret s 13).table r k).ch = (s.table r k).ch) ∧
    (∀ i, i < wordle_h.WORD_LENGTH →
      ((add_char_to_table wordle_h secret s 13).table s.curr_row i).state
        = char_to_state wordle_h (s.table s.curr_row i).ch secret i) ∧
    (∀ r k, r ≠ s.curr_row →
      ((add_char_to_table wordle_h secret s 13).table r k).state = (s.table r k).state) ∧
    (add_char_to_table wordle_h secret s 13).curr_row = s.curr_row + 1 ∧
    (add_char_to_table wordle_h secret s 13).curr_letter = 0 ∧
    (add_char_to_table wordle_h secret s 13).ppcalls
      = s.ppcalls ++ [(0, microkit_msginfo_new 0 1)] := by
  obtain ⟨hch, hst, hr, _, hpp⟩ :=
    wordle_server_send_one_slot wordle_h rfl rfl (by decide) (by decide) secret s
  have hbs : char_is_backspace ((13 : Nat) : Int) = false := by decide
  have e : add_char_to_table wordle_h secret s 13
      = { wordle_server_send wordle_h secret s with
          curr_row := (wordle_server_send wordle_h secret s).curr_row + 1, curr_letter := 0 } := by
    simp only [add_char_to_table, hbs, Bool.false_eq_true, if_false, ne_eq, not_true_eq_false,
      false_and, hcol, and_self, if_true]
  rw [e]
  refine ⟨hch, ?_, ?_, ?_, rfl, hpp⟩
  · intro i hi
    have hl := hletters i hi
    have hc : ((to_char (s.table s.curr_row i).ch : Nat) : Int) = (s.table s.curr_row i).ch := by
      unfold is_letter at hl
      unfold to_char
      omega
    have := hst s.curr_row i
    rw [if_pos ⟨rfl, hi⟩, hc] at this
    exact this
  · intro r k hne
    have := hst r k
    rw [if_neg (fun hh => hne hh.1)] at this
    exact this
  · simp only [hr]

set_option maxRecDepth 100000 in
/-- C1, on the secret "hello" with "hellx" typed into row 0: Enter gives the states
`CORRECT_PLACEMENT` four times and then `INCORRECT`, and moves the cursor to (1, 0). -/
theorem enter_on_full_row_witness :
    (feed wordle_h word (boot wordle_h) [104, 101, 108, 108, 120]).curr_row
      < wordle_h.NUM_TRIES ∧
    (feed wordle_h word (boot wordle_h) [104, 101, 108, 108, 120]).curr_letter
      = wordle_h.WORD_LENGTH ∧
    (∀ i, i < wordle_h.WORD_LENGTH → is_letter
      ((feed wordle_h word (boot wordle_h) [104, 101, 108, 108, 120]).table
        (feed wordle_h word (boot wordle_h) [104, 101, 108, 108, 120]).curr_row i).ch) ∧
    (∀ i, i < wordle_h.WORD_LENGTH →
      ((add_char_to_table wordle_h word
          (feed wordle_h word (boot wordle_h) [104, 101, 108, 108, 120]) 13).table
        (feed wordle_h word (boot wordle_h) [104, 101, 108, 108, 120]).curr_row i).state
      = [CORRECT_PLACEMENT, CORRECT_PLACEMENT, CORRECT_PLACEMENT, CORRECT_PLACEMENT,
          INCORRECT].getD i 0) ∧
    (add_char_to_table wordle_h word
      (feed wordle_h word (boot wordle_h) [104, 101, 108, 108, 120]) 13).curr_row = 0 + 1 :=
  ⟨by decide, by decide, by decide,
   fun i hi =>
    ((enter_on_full_row word (feed wordle_h word (boot wordle_h) [104, 101, 108, 108, 120])
      (by decide) (by decide) (by decide)).2.1 i hi).trans
      (by
        have hi5 : i < 5 := hi
        interval_cases i <;> decide),
   (enter_on_full_row word (feed wordle_h word (boot wordle_h) [104, 101, 108, 108, 120])
      (by decide) (by decide) (by decide)).2.2.2.1⟩

/-- C3, for the slot width of the code (64 bits, `BYTES_PER_REGISTER` 8): for every length
`n` from 1 to 40 (`WORD_LENGTH = n`) and every sequence of `n` bytes, the bytes the loop of
`protected` extracts from the registers the packing loop of `wordle_server_send` wrote are
exactly that sequence. -/
theorem request_roundtrip (n : Nat) (seq secret : List Nat) (m : MsgRegs)
    (h1 : 1 ≤ n) (h40 : n ≤ 40) (hlen : seq.length = n) (hbytes : ∀ b ∈ seq, b < 256) :
    (protected_loop (with_word_length n) secret
      (send_loop (with_word_length n) (fun i => ((seq.getD i 0 : Nat) : Int)) m n).m n).seen
      = seq := by
  have hN : (with_word_length n).WORD_LENGTH ≤ 2048 := by
    show n ≤ 2048
    omega
  obtain ⟨_, hpr, _⟩ := send_loop_full (with_word_length n) rfl rfl
    (fun i => ((seq.getD i 0 : Nat) : Int)) m h1 hN
  obtain ⟨hseen, _⟩ := protected_loop_full (with_word_length n) rfl rfl secret h1 hN
    (fun j => to_char ((seq.getD j 0 : Nat) : Int)) (fun j => to_char_lt _)
    (send_loop (with_word_length n) (fun i => ((seq.getD i 0 : Nat) : Int)) m n).m
    (fun k hk => (hpr k).trans (if_pos hk))
  have hwl : (with_word_length n).WORD_LENGTH = n := rfl
  rw [hwl] at hseen
  rw [hseen]
  apply List.ext_getElem
  · simp [hlen]
  · intro i hi1 hi2
    have hb := hbytes seq[i] (List.getElem_mem _)
    simp only [List.getElem_map, List.getElem_range, List.getD_eq_getElem _ 0 hi2]
    exact to_char_cast _ hb

/-- C3, on the sequence 1, 2, 3, 4, 5 from registers all zero: the five bytes are packed and
extracted again unchanged. -/
theorem request_roundtrip_witness :
    (protected_loop (with_word_length 5) word
      (send_loop (with_word_length 5) (fun i => (([1, 2, 3, 4, 5].getD i 0 : Nat) : Int))
        no_regs 5).m 5).seen
      = [1, 2, 3, 4, 5] :=
  request_roundtrip 5 [1, 2, 3, 4, 5] word no_regs (by decide) (by decide) (by decide)
    (by decide)

/-- C3 as stated fails for a slot width of 32 bits (`BYTES_PER_REGISTER` 4) at
`WORD_LENGTH` 5: the slot index is `i / 8` on both sides, so the fifth byte overwrites
register 0, and the bytes extracted from the packed 1, 2, 3, 4, 5 are 5, 0, 0, 0, 5. -/
theorem request_roundtrip_fails_for_32_bit_slots :
    (protected_loop (with_slot_bytes 5 4) word
      (send_loop (with_slot_bytes 5 4) (fun i => (([1, 2, 3, 4, 5].getD i 0 : Nat) : Int))
        no_regs 5).m 5).seen = [5, 0, 0, 0, 5] ∧
    (protected_loop (with_slot_bytes 5 4) word
      (send_loop (with_slot_bytes 5 4) (fun i => (([1, 2, 3, 4, 5].getD i 0 : Nat) : Int))
        no_regs 5).m 5).seen ≠ [1, 2, 3, 4, 5] := by
  constructor <;> decide

/-- C5, for words of 1 to 2048 bytes (the range in which the `uint8_t` slot index `i / 8`
does not wrap) and 8 bytes per slot: the packing loop of `wordle_server_send` writes the
slots `0 .. ceil (n / 8) - 1`, each exactly once and in this order, that count is
`regs_needed`, and in the last written slot every byte position above `(n - 1) % 8` is
zero. -/
theorem send_loop_slot_count (n : Nat) (row : Nat → Int) (m : MsgRegs)
    (h1 : 1 ≤ n) (hN : n ≤ 2048) :
    written_slots m (send_loop (with_word_length n) row m n).m = List.range ((n + 7) / 8) ∧
    regs_needed (with_word_length n) = (n + 7) / 8 ∧
    (∀ j, (n - 1) % 8 < j → j < 8 →
      ((send_loop (with_word_length n) row m n).m.regs ((n - 1) / 8) / 256 ^ j) % 256 = 0) := by
  obtain ⟨_, hpr, hsets⟩ := send_loop_full (with_word_length n) rfl rfl row m h1 hN
  have hwl : (with_word_length n).WORD_LENGTH = n := rfl
  rw [hwl] at hpr hsets
  refine ⟨?_, ?_, ?_⟩
  · unfold written_slots
    rw [hsets, List.drop_left, List.map_map]
    apply List.ext_getElem
    · simp
    · intro i hi1 hi2
      simp
  · show (n + (8 - 1)) / 8 % 65536 = (n + 7) / 8
    omega
  · intro j hj1 hj2
    obtain ⟨i, hi⟩ : ∃ i, n = i + 1 := ⟨n - 1, by omega⟩
    have hlast := frame_slot_last (fun j => to_char (row j)) i
    have hlt := le_bytes_lt ((List.range' (8 * (i / 8)) (i % 8 + 1)).map fun j => to_char (row j))
      (by
        intro b hbm
        obtain ⟨x, _, rfl⟩ := List.mem_map.mp hbm
        exact to_char_lt _)
    simp only [List.length_map, List.length_range'] at hlt
    have hd : (n - 1) / 8 = i / 8 := by rw [hi]; rfl
    have hm : (n - 1) % 8 = i % 8 := by rw [hi]; rfl
    rw [hm] at hj1
    have hpow : 256 ^ (i % 8 + 1) ≤ 256 ^ j := Nat.pow_le_pow_right (by norm_num) (by omega)
    rw [hd, hpr (i / 8), if_pos (by omega), hi, hlast, Nat.div_eq_of_lt (by omega)]

/-- C5, at `n = 5` from registers all zero: one slot, slot 0, is written, one register is
announced, and bytes 5, 6 and 7 of that slot are zero. -/
theorem send_loop_slot_count_witness :
    written_slots no_regs (send_loop (with_word_length 5) (fun _ => 104) no_regs 5).m = [0] ∧
    regs_needed (with_word_length 5) = 1 ∧
    ((send_loop (with_word_length 5) (fun _ => 104) no_regs 5).m.regs 0 / 256 ^ 5) % 256 = 0 ∧
    ((send_loop (with_word_length 5) (fun _ => 104) no_regs 5).m.regs 0 / 256 ^ 6) % 256 = 0 ∧
    ((send_loop (with_word_length 5) (fun _ => 104) no_regs 5).m.regs 0 / 256 ^ 7) % 256 = 0 :=
  ⟨(send_loop_slot_count 5 (fun _ => 104) no_regs (by decide) (by decide)).1,
   (send_loop_slot_count 5 (fun _ => 104) no_regs (by decide) (by decide)).2.1,
   (send_loop_slot_count 5 (fun _ => 104) no_regs (by decide) (by decide)).2.2 5
     (by decide) (by decide),
   (send_loop_slot_count 5 (fun _ => 104) no_regs (by decide) (by decide)).2.2 6
     (by decide) (by decide),
   (send_loop_slot_count 5 (fun _ => 104) no_regs (by decide) (by decide)).2.2 7
     (by decide) (by decide)⟩

set_option maxRecDepth 1000000 in
/-- C5 as stated fails at `n = 2049`: the slot index is a `uint8_t`, so byte 2048 is written
to slot `256 % 256 = 0`; slot 0 is written twice, slot 256 never, and the slots written are
not `0 .. 256`. -/
theorem send_loop_slot_count_fails_at_2049 :
    written_slots no_regs (send_loop (with_word_length 2049) (fun _ => 0) no_regs 2049).m
      ≠ List.range ((2049 + 7) / 8) ∧
    (written_slots no_regs
      (send_loop (with_word_length 2049) (fun _ => 0) no_regs 2049).m).count 0 = 2 ∧
    256 ∉ written_slots no_regs
      (send_loop (with_word_length 2049) (fun _ => 0) no_regs 2049).m := by
  refine ⟨?_, ?_, ?_⟩ <;> decide

set_option maxRecDepth 100000 in
/-- C4 at `WORD_LENGTH` 9, the guess "zzzzzzzzz" against the secret "hello": every state is
`INCORRECT`, and the loop of `protected` writes a single register, slot 1, holding the
states of bytes 0 to 7 with the state of byte 8 or-ed into its low byte; slot 0 still holds
the request.  The packing loop of `wordle_server_send` puts the same nine states into
slots 0 and 1. -/
theorem reply_flush_skips_slot_boundary :
    (∀ i, i < 9 → char_to_state nine_h 122 word i = INCORRECT) ∧
    written_slots nine_z_request nine_z_reply = [1] ∧
    nine_z_reply.regs 0 = 0x7a7a7a7a7a7a7a7a ∧
    nine_z_reply.regs 1 = 0x0202020202020202 ∧
    written_slots no_regs nine_incorrect_frame = [0, 1] ∧
    nine_incorrect_frame.regs 0 = 0x0202020202020202 ∧
    nine_incorrect_frame.regs 1 = 0x02 := by
  refine ⟨?_, ?_, ?_, ?_, ?_, ?_, ?_⟩ <;> decide

/-! ## Keystrokes, one at a time and in sequence -/

theorem char_is_backspace_iff (c : Nat) : char_is_backspace (c : Int) = true ↔ c = 127 := by
  simp only [char_is_backspace, decide_eq_true_eq]
  omega

/-- The four things `add_char_to_table` can do: erase the last character of the row, store
the byte, submit the row, or nothing. -/
theorem add_char_to_table_cases (h : Header) (secret : List Nat) (s : Client) (c : Nat) :
    (c = 127 ∧ 0 < s.curr_letter ∧
      add_char_to_table h secret s c =
        { s with curr_letter := s.curr_letter - 1
                 table := set_ch s.table s.curr_row (s.curr_letter - 1) INVALID_CHAR }) ∨
    (c ≠ 127 ∧ c ≠ 13 ∧ c ≠ 32 ∧ s.curr_letter ≠ h.WORD_LENGTH ∧
      add_char_to_table h secret s c =
        { s with table := set_ch s.table s.curr_row s.curr_letter (c : Int)
                 curr_letter := s.curr_letter + 1 }) ∨
    (c = 13 ∧ s.curr_letter = h.WORD_LENGTH ∧
      add_char_to_table h secret s c =
        { wordle_server_send h secret s with
          curr_row := (wordle_server_send h secret s).curr_row + 1, curr_letter := 0 }) ∨
    ((c = 127 → s.curr_letter = 0) ∧ (c = 13 → s.curr_letter ≠ h.WORD_LENGTH) ∧
      (c ≠ 127 → c ≠ 13 → c ≠ 32 → s.curr_letter = h.WORD_LENGTH) ∧
      add_char_to_table h secret s c = s) := by
  by_cases h127 : c = 127
  · subst h127
    have hbs : char_is_backspace ((127 : Nat) : Int) = true := by decide
    by_cases hl : s.curr_letter > 0
    · refine Or.inl ⟨rfl, hl, ?_⟩
      simp only [add_char_to_table, hbs, if_true, hl, Nat.reduceEqDiff, false_and, if_false]
    · refine Or.inr (Or.inr (Or.inr ⟨fun _ => by omega, fun hh => by omega,
        fun hh => absurd rfl hh, ?_⟩))
      simp only [add_char_to_table, hbs, if_true, hl, Nat.reduceEqDiff, false_and, if_false]
  · have hbs : char_is_backspace (c : Int) = false := by
      cases hb : char_is_backspace (c : Int)
      · rfl
      · exact absurd ((char_is_backspace_iff c).mp hb) h127
    by_cases h13 : c = 13
    · subst h13
      by_cases hl : s.curr_letter = h.WORD_LENGTH
      · refine Or.inr (Or.inr (Or.inl ⟨rfl, hl, ?_⟩))
        unfold add_char_to_table
        rw [hbs]
        simp only [Bool.false_eq_true, if_false, ne_eq, not_true_eq_false, false_and, true_and]
        rw [if_pos hl]
      · refine Or.inr (Or.inr (Or.inr ⟨fun hh => by omega, fun _ => hl,
          fun _ hh => absurd rfl hh, ?_⟩))
        unfold add_char_to_table
        rw [hbs]
        simp only [Bool.false_eq_true, if_false, ne_eq, not_true_eq_false, false_and, true_and]
        rw [if_neg hl]
    · by_cases hstore : c ≠ 32 ∧ s.curr_letter ≠ h.WORD_LENGTH
      · refine Or.inr (Or.inl ⟨h127, h13, hstore.1, hstore.2, ?_⟩)
        unfold add_char_to_table
        rw [hbs]
        simp only [Bool.false_eq_true, if_false, h13, hstore.1, hstore.2, ne_eq,
          not_false_eq_true, and_self, if_true, false_and]
      · refine Or.inr (Or.inr (Or.inr ⟨fun hh => absurd hh h127, fun hh => absurd hh h13,
          fun _ _ h32 => by
            by_contra hl
            exact hstore ⟨h32, hl⟩, ?_⟩))
        unfold add_char_to_table
        rw [hbs]
        have hst2 : ¬ (¬ c = 32 ∧ ¬ s.curr_letter = h.WORD_LENGTH) := hstore
        simp only [Bool.false_eq_true, if_false, h13, hst2, ne_eq, not_false_eq_true,
          true_and, false_and]

theorem set_ch_ch (t : Nat → Nat → wordle_char) (row letter : Nat) (v : Int) (r k : Nat) :
    (set_ch t row letter v r k).ch = if r = row ∧ k = letter then v else (t r k).ch := by
  unfold set_ch
  split <;> rfl

theorem set_ch_other_row (t : Nat → Nat → wordle_char) (row letter : Nat) (v : Int) (r k : Nat)
    (hr : r ≠ row) : set_ch t row letter v r k = t r k := by
  unfold set_ch
  rw [if_neg (fun hh => hr hh.1)]

theorem wordle_char_ext (a b : wordle_char) (hc : a.ch = b.ch) (hs : a.state = b.state) :
    a = b := by
  cases a
  cases b
  simp only at hc hs
  rw [hc, hs]

/-- The board after `init`: every cell of the grid is empty and `INCORRECT`. -/
theorem boot_grid (r k : Nat) (hr : r < wordle_h.NUM_TRIES) (hk : k < wordle_h.WORD_LENGTH) :
    (boot wordle_h).table r k = { ch := INVALID_CHAR, state := INCORRECT } := by
  have hr5 : r < 5 := hr
  have hk5 : k < 5 := hk
  interval_cases r <;> interval_cases k <;> rfl

/-- What `add_char_to_table` does to the states of the table, in the program as `wordle.h`
configures it: a submitted row receives the states of its characters, nothing else
changes. -/
theorem add_char_to_table_states (secret : List Nat) (s : Client) (c : Nat) (r k : Nat) :
    ((add_char_to_table wordle_h secret s c).table r k).state
      = if c = 13 ∧ s.curr_letter = wordle_h.WORD_LENGTH ∧ r = s.curr_row ∧
            k < wordle_h.WORD_LENGTH then
          char_to_state wordle_h (to_char (s.table s.curr_row k).ch : Int) secret k
        else (s.table r k).state := by
  obtain ⟨_, hst, _, _, _⟩ :=
    wordle_server_send_one_slot wordle_h rfl rfl (by decide) (by decide) secret s
  rcases add_char_to_table_cases wordle_h secret s c with
    ⟨h1, _, e⟩ | ⟨_, h1, _, _, e⟩ | ⟨h1, h2, e⟩ | ⟨_, h2, _, e4⟩
  · have : ¬ c = 13 := by omega
    rw [e, if_neg (fun hh => this hh.1)]
    exact set_ch_state _ _ _ _ _ _
  · rw [e, if_neg (fun hh => h1 hh.1)]
    exact set_ch_state _ _ _ _ _ _
  · rw [e]
    simp only [h1, h2, true_and]
    exact hst r k
  · rw [e4, if_neg (fun hh => h2 hh.1 hh.2.1)]

/-- What `add_char_to_table` does to the characters of the table, in the program as
`wordle.h` configures it: Backspace empties the cell before the cursor, a stored byte
lands in the cell at the cursor, nothing else changes. -/
theorem add_char_to_table_chars (secret : List Nat) (s : Client) (c : Nat) (r k : Nat) :
    ((add_char_to_table wordle_h secret s c).table r k).ch
      = if c = 127 ∧ 0 < s.curr_letter ∧ r = s.curr_row ∧ k = s.curr_letter - 1 then
          INVALID_CHAR
        else if c ≠ 127 ∧ c ≠ 13 ∧ c ≠ 32 ∧ s.curr_letter ≠ wordle_h.WORD_LENGTH ∧
            r = s.curr_row ∧ k = s.curr_letter then (c : Int)
        else (s.table r k).ch := by
  obtain ⟨hch, _, _, _, _⟩ :=
    wordle_server_send_one_slot wordle_h rfl rfl (by decide) (by decide) secret s
  rcases add_char_to_table_cases wordle_h secret s c with
    ⟨h1, h2, e⟩ | ⟨h1, h2, h3, h4, e⟩ | ⟨h1, h2, e⟩ | ⟨h1, h2, h3, e⟩
  · rw [e]
    simp only [set_ch_ch, h1, h2, true_and, ne_eq, not_true_eq_false, false_and, if_false]
  · rw [e]
    simp only [set_ch_ch, h1, h2, h3, h4, false_and, if_false, ne_eq, not_false_eq_true,
      true_and]
  · have h127 : ¬ c = 127 := by omega
    rw [e]
    simp only [h127, h1, false_and, if_false, ne_eq, not_true_eq_false, not_false_eq_true,
      true_and]
    exact hch r k
  · rw [e]
    by_cases h127 : c = 127
    · have hl := h1 h127
      have hl0 : ¬ 0 < s.curr_letter := by omega
      simp only [h127, hl0, false_and, and_false, if_false, ne_eq, not_true_eq_false]
    · by_cases h13 : c = 13
      · simp [h13]
      · by_cases h32 : c = 32
        · simp only [h127, h32, false_and, if_false, ne_eq, not_true_eq_false, and_false,
            Nat.reduceEqDiff, not_false_eq_true, true_and]
        · have hl := h3 h127 h13 h32
          simp only [h127, h13, h32, hl, false_and, if_false, ne_eq, not_true_eq_false,
            not_false_eq_true, true_and]

/-- What `add_char_to_table` does to the cursor and to the trace of calls, in the program
as `wordle.h` configures it. -/
theorem add_char_to_table_cursor (secret : List Nat) (s : Client) (c : Nat) :
    (add_char_to_table wordle_h secret s c).curr_letter
      = (if c = 127 ∧ 0 < s.curr_letter then s.curr_letter - 1
        else if c ≠ 127 ∧ c ≠ 13 ∧ c ≠ 32 ∧ s.curr_letter ≠ wordle_h.WORD_LENGTH then
          s.curr_letter + 1
        else if c = 13 ∧ s.curr_letter = wordle_h.WORD_LENGTH then 0
        else s.curr_letter) ∧
    (add_char_to_table wordle_h secret s c).curr_row
      = (if c = 13 ∧ s.curr_letter = wordle_h.WORD_LENGTH then s.curr_row + 1
        else s.curr_row) ∧
    (add_char_to_table wordle_h secret s c).ppcalls
      = (if c = 13 ∧ s.curr_letter = wordle_h.WORD_LENGTH then
          s.ppcalls ++ [(0, microkit_msginfo_new 0 1)]
        else s.ppcalls) := by
  obtain ⟨_, _, hr, _, hpp⟩ :=
    wordle_server_send_one_slot wordle_h rfl rfl (by decide) (by decide) secret s
  rcases add_char_to_table_cases wordle_h secret s c with
    ⟨h1, h2, e⟩ | ⟨h1, h2, h3, h4, e⟩ | ⟨h1, h2, e⟩ | ⟨h1, h2, h3, e⟩
  · have h13 : ¬ c = 13 := by omega
    rw [e]
    simp only [h1, h2, and_self, if_true, h13, false_and, if_false, Nat.reduceEqDiff]
  · rw [e]
    simp only [h1, h2, h3, h4, false_and, if_false, ne_eq, not_false_eq_true, and_self,
      if_true]
  · have h127 : ¬ c = 127 := by omega
    rw [e]
    simp [h1, h2, hr, hpp]
  · rw [e]
    have hnot13 : ¬ (c = 13 ∧ s.curr_letter = wordle_h.WORD_LENGTH) := fun hh => h2 hh.1 hh.2
    have hnot127 : ¬ (c = 127 ∧ 0 < s.curr_letter) := fun hh => by
      have := h1 hh.1
      omega
    have hnotst : ¬ (c ≠ 127 ∧ c ≠ 13 ∧ c ≠ 32 ∧ s.curr_letter ≠ wordle_h.WORD_LENGTH) :=
      fun hh => hh.2.2.2 (h3 hh.1 hh.2.1 hh.2.2.1)
    simp only [hnot13, hnot127, hnotst, if_false, and_self]

/-! ## The oracle on other channels -/

/-- C11: on every channel other than 0, `protected` writes no message register (the
registers and the trace of writes are those it was given) and returns the message info it
was given; the secret is only ever an argument that is read. -/
theorem unknown_channel_is_ignored (h : Header) (secret : List Nat) (ch : Nat)
    (msginfo : microkit_msginfo) (m : MsgRegs) (hch : ch ≠ 0) :
    («protected» h secret ch msginfo m).2 = m ∧
    written_slots m («protected» h secret ch msginfo m).2 = [] ∧
    (∀ k, («protected» h secret ch msginfo m).2.regs k = m.regs k) ∧
    («protected» h secret ch msginfo m).1 = msginfo := by
  have e : «protected» h secret ch msginfo m = (msginfo, m) := by
    unfold «protected»
    rw [if_neg hch]
  rw [e]
  refine ⟨rfl, ?_, fun _ => rfl, rfl⟩
  simp [written_slots]

/-- C11, on channel 1 with the registers left by a packed "zzzzzzzzz": nothing is written
and the message info comes back. -/
theorem unknown_channel_is_ignored_witness :
    (1 : Nat) ≠ 0 ∧
    («protected» wordle_h word 1 (microkit_msginfo_new 7 1) nine_z_request).2
      = nine_z_request ∧
    («protected» wordle_h word 1 (microkit_msginfo_new 7 1) nine_z_request).1
      = microkit_msginfo_new 7 1 :=
  ⟨by decide,
   (unknown_channel_is_ignored wordle_h word 1 (microkit_msginfo_new 7 1) nine_z_request
      (by decide)).1,
   (unknown_channel_is_ignored wordle_h word 1 (microkit_msginfo_new 7 1) nine_z_request
      (by decide)).2.2.2⟩

/-! ## Keystrokes the code stores whatever they are -/

set_option maxRecDepth 100000 in
/-- C14 on the keystrokes `'1'`, `'2'`, `'3'`, `'4'`, `'5'`, Enter from the start state: the
five digits are stored in row 0 (cell (0, 0) holds 0x31, neither empty nor a letter), and
the row is submitted: the first register write of the call is slot 0 with the five digit
codes packed, the second is the oracle's reply, five times `INCORRECT`. -/
theorem digits_reach_the_oracle :
    ((feed wordle_h word (boot wordle_h) [0x31, 0x32, 0x33, 0x34, 0x35]).table 0 0).ch
      = 0x31 ∧
    ¬ is_letter 0x31 ∧ (0x31 : Int) ≠ INVALID_CHAR ∧
    (feed wordle_h word (boot wordle_h) [0x31, 0x32, 0x33, 0x34, 0x35, 13]).ppcalls.length
      = 1 ∧
    (feed wordle_h word (boot wordle_h) [0x31, 0x32, 0x33, 0x34, 0x35, 13]).m.sets
      = [(0, 0x3534333231), (0, 0x0202020202)] := by
  refine ⟨?_, ?_, ?_, ?_, ?_⟩ <;> decide

/-- C19: for every state with `curr_row ≤ NUM_TRIES` and every keystroke byte,
`add_char_to_table`, the call and the decoding of the reply included, leaves every cell of
every row below `curr_row` as it was, character and state; indeed every cell outside row
`curr_row`. -/
theorem submitted_rows_are_final (secret : List Nat) (s : Client) (c : Nat)
    (_hrow : s.curr_row ≤ wordle_h.NUM_TRIES) :
    (∀ r k, r < s.curr_row → (add_char_to_table wordle_h secret s c).table r k = s.table r k) ∧
    (∀ r k, r ≠ s.curr_row → (add_char_to_table wordle_h secret s c).table r k = s.table r k) := by
  have hother : ∀ r k, r ≠ s.curr_row →
      (add_char_to_table wordle_h secret s c).table r k = s.table r k := by
    intro r k hne
    apply wordle_char_ext
    · rw [add_char_to_table_chars, if_neg (fun hh => hne hh.2.2.1),
        if_neg (fun hh => hne hh.2.2.2.2.1)]
    · rw [add_char_to_table_states, if_neg (fun hh => hne hh.2.2.1)]
  exact ⟨fun r k hr => hother r k (by omega), hother⟩

set_option maxRecDepth 100000 in
/-- C19, after "hellx", Enter, "hello": the second Enter leaves cell (0, 4) of the first
row with its `'x'` and its state `INCORRECT`. -/
theorem submitted_rows_are_final_witness :
    (feed wordle_h word (boot wordle_h)
      [104, 101, 108, 108, 120, 13, 104, 101, 108, 108, 111]).curr_row ≤ wordle_h.NUM_TRIES ∧
    (0 : Nat) < (feed wordle_h word (boot wordle_h)
      [104, 101, 108, 108, 120, 13, 104, 101, 108, 108, 111]).curr_row ∧
    (add_char_to_table wordle_h word (feed wordle_h word (boot wordle_h)
      [104, 101, 108, 108, 120, 13, 104, 101, 108, 108, 111]) 13).table 0 4
      = (feed wordle_h word (boot wordle_h)
          [104, 101, 108, 108, 120, 13, 104, 101, 108, 108, 111]).table 0 4 ∧
    (feed wordle_h word (boot wordle_h)
      [104, 101, 108, 108, 120, 13, 104, 101, 108, 108, 111]).table 0 4
      = { ch := 120, state := INCORRECT } :=
  ⟨by decide, by decide,
   (submitted_rows_are_final word (feed wordle_h word (boot wordle_h)
      [104, 101, 108, 108, 120, 13, 104, 101, 108, 108, 111]) 13 (by decide)).1 0 4
      (by decide),
   by decide⟩

/-! ## The secret and the all-correct reply -/

theorem char_to_state_correct_iff (h : Header) (ch : Int) (secret : List Nat) (i : Nat) :
    char_to_state h ch secret i = CORRECT_PLACEMENT ↔ ch = wordAt secret i := by
  unfold char_to_state CORRECT_PLACEMENT INCORRECT_PLACEMENT INCORRECT
  constructor
  · intro hc
    by_contra hne
    rw [if_neg hne] at hc
    split at hc <;> omega
  · intro hc
    rw [if_pos hc]

/-- C20: for a secret and a guess of `WORD_LENGTH` bytes each, `char_to_state` answers
`CORRECT_PLACEMENT` at every position exactly when the guess equals the secret, byte for
byte. -/
theorem all_correct_iff_secret (h : Header) (secret guess : List Nat)
    (hs : secret.length = h.WORD_LENGTH) (hg : guess.length = h.WORD_LENGTH) :
    (∀ i, i < h.WORD_LENGTH →
      char_to_state h ((guess.getD i 0 : Nat) : Int) secret i = CORRECT_PLACEMENT) ↔
    guess = secret := by
  constructor
  · intro hall
    apply List.ext_getElem
    · rw [hs, hg]
    · intro i h1 h2
      have := (char_to_state_correct_iff h _ secret i).mp (hall i (by omega))
      unfold wordAt at this
      rw [List.getD_eq_getElem _ 0 h1, List.getD_eq_getElem _ 0 h2] at this
      exact_mod_cast this
  · intro he i _
    rw [he]
    exact (char_to_state_correct_iff h _ secret i).mpr rfl

/-- C20, on the secret "hello": the guess "hello" is all correct, the guess "Hello" is not,
because the comparison is of byte values (`'H'` is 72, `'h'` is 104). -/
theorem all_correct_iff_secret_witness :
    word.length = wordle_h.WORD_LENGTH ∧
    [72, 101, 108, 108, 111].length = wordle_h.WORD_LENGTH ∧
    (∀ i, i < wordle_h.WORD_LENGTH →
      char_to_state wordle_h ((word.getD i 0 : Nat) : Int) word i = CORRECT_PLACEMENT) ∧
    ¬ (∀ i, i < wordle_h.WORD_LENGTH →
      char_to_state wordle_h (([72, 101, 108, 108, 111].getD i 0 : Nat) : Int) word i
        = CORRECT_PLACEMENT) ∧
    char_to_state wordle_h 72 word 0 ≠ CORRECT_PLACEMENT :=
  ⟨by decide, by decide,
   (all_correct_iff_secret wordle_h word word (by decide) (by decide)).mpr rfl,
   fun hall => absurd
     ((all_correct_iff_secret wordle_h word [72, 101, 108, 108, 111] (by decide)
        (by decide)).mp hall) (by decide),
   by decide⟩

/-! ## The reply when one register suffices -/

/-- C17: for every `WORD_LENGTH` `n` from 1 to `BYTES_PER_REGISTER`, every secret and every
guess of `n` bytes, the loop of `protected` writes no register before its last iteration
and then exactly one, slot 0, and the read-back loop of `wordle_server_send` recovers from
it the states `char_to_state (guess[i], secret, i)` in order. -/
theorem one_slot_reply (n : Nat) (guess secret : List Nat) (m : MsgRegs)
    (row value : Nat) (t : Nat → Nat → wordle_char)
    (h1 : 1 ≤ n) (h8 : n ≤ wordle_h.BYTES_PER_REGISTER) (hlen : guess.length = n)
    (hbytes : ∀ b ∈ guess, b < 256) :
    (∀ j, j < n →
      (protected_loop (with_word_length n) secret (request_regs n guess m) j).m
        = request_regs n guess m) ∧
    (∃ v, (reply_regs n guess secret m).sets = (request_regs n guess m).sets ++ [(0, v)]) ∧
    written_slots (request_regs n guess m) (reply_regs n guess secret m) = [0] ∧
    (∀ i, i < n →
      ((recv_loop (with_word_length n) (reply_regs n guess secret m) row value t n).table
        row i).state
        = char_to_state (with_word_length n) ((guess.getD i 0 : Nat) : Int) secret i) := by
  have h8' : n ≤ 8 := h8
  have hN : (with_word_length n).WORD_LENGTH ≤ 2048 := by
    show n ≤ 2048
    omega
  have hwl : (with_word_length n).WORD_LENGTH = n := rfl
  obtain ⟨_, hpr, _⟩ := send_loop_full (with_word_length n) rfl rfl
    (fun i => ((guess.getD i 0 : Nat) : Int)) m h1 hN
  have hreq : ∀ k, k < ((with_word_length n).WORD_LENGTH + 7) / 8 →
      (request_regs n guess m).regs k
        = frame_slot (fun j => to_char ((guess.getD j 0 : Nat) : Int))
            (with_word_length n).WORD_LENGTH k :=
    fun k hk => (hpr k).trans (if_pos hk)
  obtain ⟨_, v, hv, hv8⟩ := protected_loop_full (with_word_length n) rfl rfl secret h1 hN
    (fun j => to_char ((guess.getD j 0 : Nat) : Int)) (fun j => to_char_lt _)
    (request_regs n guess m) hreq
  have hd : ((with_word_length n).WORD_LENGTH - 1) / 8 = 0 := by
    rw [hwl]
    omega
  have hreply : reply_regs n guess secret m = microkit_mr_set (request_regs n guess m) 0 v := by
    rw [← hd, ← hv]
    rfl
  have hsets : (reply_regs n guess secret m).sets = (request_regs n guess m).sets ++ [(0, v)] := by
    rw [hreply]
    rfl
  refine ⟨?_, ⟨v, hsets⟩, ?_, ?_⟩
  · intro j hj
    exact (protected_loop_before_last (with_word_length n) rfl rfl secret hN
      (fun j => to_char ((guess.getD j 0 : Nat) : Int)) (fun j => to_char_lt _)
      (request_regs n guess m) hreq j hj).1
  · unfold written_slots
    rw [hsets, List.drop_left]
    rfl
  · intro i hi
    have hregs : ∀ k, k < ((with_word_length n).WORD_LENGTH + 7) / 8 →
        (reply_regs n guess secret m).regs k
          = frame_slot (fun j => char_to_state (with_word_length n)
              ((to_char ((guess.getD j 0 : Nat) : Int) : Nat) : Int) secret j)
              (with_word_length n).WORD_LENGTH k := by
      intro k hk
      rw [hwl] at hk
      have hk0 : k = 0 := by omega
      rw [hreply, hk0, ← hv8 h8']
      simp [microkit_mr_set]
    obtain ⟨_, _, hs⟩ := recv_loop_upto (with_word_length n) rfl rfl hN
      (fun j => char_to_state (with_word_length n)
        ((to_char ((guess.getD j 0 : Nat) : Int) : Nat) : Int) secret j)
      (fun j => Nat.lt_of_le_of_lt (char_to_state_le _ _ secret j) (by norm_num))
      (reply_regs n guess secret m) hregs row value t n (le_refl _)
    have hb : guess.getD i 0 < 256 := by
      rw [List.getD_eq_getElem _ 0 (by omega)]
      exact hbytes _ (List.getElem_mem _)
    rw [hs row i, if_pos ⟨rfl, hi⟩, to_char_cast _ hb]

set_option maxRecDepth 100000 in
/-- C17, for the guess "hellx" against the secret "hello" from registers all zero: the one
register written is slot 0 and it holds the states 0, 0, 0, 0, 2. -/
theorem one_slot_reply_witness :
    (1 : Nat) ≤ 5 ∧ 5 ≤ wordle_h.BYTES_PER_REGISTER ∧
    [104, 101, 108, 108, 120].length = 5 ∧ (∀ b ∈ [104, 101, 108, 108, 120], b < 256) ∧
    written_slots (request_regs 5 [104, 101, 108, 108, 120] no_regs)
      (reply_regs 5 [104, 101, 108, 108, 120] word no_regs) = [0] ∧
    (reply_regs 5 [104, 101, 108, 108, 120] word no_regs).regs 0 = 0x0200000000 :=
  ⟨by decide, by decide, by decide, by decide,
   (one_slot_reply 5 [104, 101, 108, 108, 120] word no_regs 0 0 (boot wordle_h).table
      (by decide) (by decide) (by decide) (by decide)).2.2.1,
   by decide⟩

/-! ## `print_table` -/

theorem serial_send_client (w : Terminal) (str : List Nat) :
    (serial_send w str).client = w.client := rfl

theorem serial_send_sent (w : Terminal) (str : List Nat) :
    (serial_send w str).sent = w.sent ++ [str.takeWhile fun b => b ≠ 0] := rfl

/-- One cell: the client is untouched and the strings sent are those of the cell. -/
theorem print_cell_spec (w : Terminal) (row letter : Nat) :
    (print_cell w row letter).client = w.client ∧
    (print_cell w row letter).sent = w.sent ++ cell_strings (w.client.table row letter) := by
  simp only [print_cell, cell_strings, serial_send_client]
  by_cases hch : (w.client.table row letter).ch ≠ INVALID_CHAR
  · simp only [hch, ne_eq, not_false_eq_true, if_true]
    by_cases h2 : (w.client.table row letter).state = INCORRECT
    · simp only [h2, if_true]
      refine ⟨rfl, ?_⟩
      simp [serial_send_sent]
    · by_cases h0 : (w.client.table row letter).state = CORRECT_PLACEMENT
      · simp only [h2, h0, if_true, if_false]
        refine ⟨rfl, ?_⟩
        simp [serial_send_sent, CORRECT_PLACEMENT, INCORRECT]
      · by_cases h1 : (w.client.table row letter).state = INCORRECT_PLACEMENT
        · simp only [h2, h0, h1, if_true, if_false]
          refine ⟨rfl, ?_⟩
          simp [serial_send_sent, CORRECT_PLACEMENT, INCORRECT_PLACEMENT, INCORRECT]
        · simp only [h2, h0, h1, if_false]
          refine ⟨rfl, ?_⟩
          simp [serial_send_sent, microkit_dbg_puts]
  · have hch2 : (w.client.table row letter).ch = INVALID_CHAR := by
      by_contra hne
      exact hch hne
    simp only [hch2, ne_eq, not_true_eq_false, if_false]
    refine ⟨rfl, ?_⟩
    simp [serial_send_sent]

theorem print_cells_spec (w : Terminal) (row n : Nat) :
    (print_cells w row n).client = w.client ∧
    (print_cells w row n).sent = w.sent ++ cells_strings w.client.table row n := by
  induction n with
  | zero => simp [print_cells, cells_strings]
  | succ n ih =>
    have e : print_cells w row (n + 1) = print_cell (print_cells w row n) row n := by
      simp [print_cells, List.range_succ, List.foldl_append]
    obtain ⟨hc, hs⟩ := print_cell_spec (print_cells w row n) row n
    rw [e, hc, hs, ih.1, ih.2]
    refine ⟨rfl, ?_⟩
    simp [cells_strings, List.range_succ]

theorem print_rows_spec (h : Header) (w : Terminal) (n : Nat) :
    (print_rows h w n).client = w.client ∧
    (print_rows h w n).sent = w.sent ++ rows_strings h w.client.table n := by
  induction n with
  | zero => simp [print_rows, rows_strings]
  | succ n ih =>
    have e : print_rows h w (n + 1) = print_row h (print_rows h w n) n := by
      simp [print_rows, List.range_succ, List.foldl_append]
    obtain ⟨hc, hs⟩ := print_cells_spec (print_rows h w n) n h.WORD_LENGTH
    rw [e]
    unfold print_row
    rw [serial_send_client, serial_send_sent, hc, hs, ih.1, ih.2]
    refine ⟨rfl, ?_⟩
    simp [rows_strings, List.range_succ]

/-- The whole of `print_table`: the client is untouched and the strings sent are
`table_strings` of the board and the flag. -/
theorem print_table_spec (h : Header) (clear_terminal : Bool) (w : Terminal) :
    (print_table h clear_terminal w).client = w.client ∧
    (print_table h clear_terminal w).sent
      = w.sent ++ table_strings h w.client.table clear_terminal := by
  unfold print_table table_strings
  cases clear_terminal
  · simpa using print_rows_spec h w h.NUM_TRIES
  · obtain ⟨hc, hs⟩ := print_rows_spec h
      (serial_send (serial_send w MOVE_CURSOR_UP) CLEAR_TERMINAL_BELOW_CURSOR) h.NUM_TRIES
    simp only [if_true]
    rw [hc, hs]
    refine ⟨rfl, ?_⟩
    simp [serial_send_sent, serial_send_client, MOVE_CURSOR_UP, CLEAR_TERMINAL_BELOW_CURSOR]

theorem printed_eq (w w2 : Terminal) (l : List (List Nat)) (hs : w2.sent = w.sent ++ l) :
    printed w w2 = l := by
  unfold printed
  rw [hs, List.drop_left]

/-- The strings of the board depend on the cells of the grid only. -/
theorem table_strings_congr (h : Header) (t t2 : Nat → Nat → wordle_char)
    (clear_terminal : Bool)
    (hgrid : ∀ r k, r < h.NUM_TRIES → k < h.WORD_LENGTH → t2 r k = t r k) :
    table_strings h t2 clear_terminal = table_strings h t clear_terminal := by
  unfold table_strings rows_strings cells_strings
  congr 2
  apply List.map_congr_left
  intro r hr
  have hr2 := List.mem_range.mp hr
  congr 2
  apply List.map_congr_left
  intro k hk
  rw [hgrid r k hr2 (List.mem_range.mp hk)]

/-- C15: for every board, cursor and clear flag, `print_table` leaves the client (board,
cursor, registers) as it was; the strings it hands to `serial_send` are `table_strings` of
the board and the flag, the same for any two terminals whose boards agree on the grid; and
a second call right after the first hands over the same strings again. -/
theorem print_table_reads_only (h : Header) (clear_terminal : Bool) (w : Terminal) :
    (print_table h clear_terminal w).client = w.client ∧
    printed w (print_table h clear_terminal w)
      = table_strings h w.client.table clear_terminal ∧
    (∀ w2 : Terminal,
      (∀ r k, r < h.NUM_TRIES → k < h.WORD_LENGTH →
        w2.client.table r k = w.client.table r k) →
      printed w2 (print_table h clear_terminal w2)
        = printed w (print_table h clear_terminal w)) ∧
    printed (print_table h clear_terminal w)
        (print_table h clear_terminal (print_table h clear_terminal w))
      = printed w (print_table h clear_terminal w) := by
  have hp : ∀ u : Terminal, printed u (print_table h clear_terminal u)
      = table_strings h u.client.table clear_terminal :=
    fun u => printed_eq u _ _ (print_table_spec h clear_terminal u).2
  refine ⟨(print_table_spec h clear_terminal w).1, hp w, ?_, ?_⟩
  · intro w2 hgrid
    rw [hp w2, hp w]
    exact table_strings_congr h _ _ _ hgrid
  · rw [hp (print_table h clear_terminal w), hp w, (print_table_spec h clear_terminal w).1]

set_option maxRecDepth 100000 in
/-- C15, on the board after "hellx" and Enter: a terminal that already holds output and
one that does not print the same strings, printing twice repeats them, and the rendering
of the start board begins with an empty cell. -/
theorem print_table_reads_only_witness :
    (∀ r k, r < wordle_h.NUM_TRIES → k < wordle_h.WORD_LENGTH →
      (print_table wordle_h false (terminal_of
        (feed wordle_h word (boot wordle_h) [104, 101, 108, 108, 120, 13]))).client.table r k
      = (terminal_of
          (feed wordle_h word (boot wordle_h) [104, 101, 108, 108, 120, 13])).client.table r k) ∧
    printed
        (print_table wordle_h false (terminal_of
          (feed wordle_h word (boot wordle_h) [104, 101, 108, 108, 120, 13])))
        (print_table wordle_h true (print_table wordle_h false (terminal_of
          (feed wordle_h word (boot wordle_h) [104, 101, 108, 108, 120, 13]))))
      = printed
          (terminal_of (feed wordle_h word (boot wordle_h) [104, 101, 108, 108, 120, 13]))
          (print_table wordle_h true
            (terminal_of (feed wordle_h word (boot wordle_h) [104, 101, 108, 108, 120, 13]))) ∧
    (printed (terminal_of (boot wordle_h))
      (print_table wordle_h false (terminal_of (boot wordle_h)))).take 3
      = [[91], [32], [93, 32]] ∧
    (printed (terminal_of (feed wordle_h word (boot wordle_h) [104, 101, 108, 108, 120, 13]))
      (print_table wordle_h true (terminal_of
        (feed wordle_h word (boot wordle_h) [104, 101, 108, 108, 120, 13])))).take 7
      = [[27, 91, 53, 65], [27, 91, 48, 74], [91], [27, 91, 51, 50, 109], [104],
          [27, 91, 48, 109], [93, 32]] :=
  ⟨fun _ _ _ _ => rfl,
   (print_table_reads_only wordle_h true
      (terminal_of (feed wordle_h word (boot wordle_h) [104, 101, 108, 108, 120, 13]))).2.2.1
      (print_table wordle_h false (terminal_of
        (feed wordle_h word (boot wordle_h) [104, 101, 108, 108, 120, 13])))
      (fun _ _ _ _ => rfl),
   by decide, by decide⟩

/-! ## Runs that stay on the board -/

/-- A property that holds of a state and is kept by every keystroke that satisfies `Q` and
stays inside the array holds at the end of every run on the board. -/
theorem feed_on_board_invariant (h : Header) (secret : List Nat) (P : Client → Prop)
    (Q : Nat → Prop)
    (hstep : ∀ s c, Q c → P s → ¬ out_of_bounds h s c → P (add_char_to_table h secret s c))
    (keys : List Nat) (hkeys : ∀ c ∈ keys, Q c) (s : Client) (hs : P s) (s2 : Client)
    (hrun : feed_on_board h secret s keys = some s2) : P s2 := by
  induction keys generalizing s with
  | nil =>
    simp only [feed_on_board, Option.some.injEq] at hrun
    exact hrun ▸ hs
  | cons c cs ih =>
    unfold feed_on_board at hrun
    by_cases hob : out_of_bounds h s c
    · rw [if_pos hob] at hrun
      exact absurd hrun (by simp)
    · rw [if_neg hob] at hrun
      exact ih (fun x hx => hkeys x (List.mem_cons_of_mem _ hx)) _
        (hstep s c (hkeys c (List.mem_cons_self _ _)) hs hob) hrun

/-- While the run stays on the board, every cell of the grid in a row not yet submitted
(row index at least `curr_row`) has state `INCORRECT`, and the cell an accepted letter is
written to has state `INCORRECT` afterwards. -/
theorem unsubmitted_rows_on_board (secret keys : List Nat) (s : Client)
    (hrun : feed_on_board wordle_h secret (boot wordle_h) keys = some s) :
    (∀ r k, s.curr_row ≤ r → r < wordle_h.NUM_TRIES → k < wordle_h.WORD_LENGTH →
      (s.table r k).state = INCORRECT) ∧
    (∀ c : Nat, is_letter (c : Int) → s.curr_row < wordle_h.NUM_TRIES →
      s.curr_letter < wordle_h.WORD_LENGTH →
      ((add_char_to_table wordle_h secret s c).table s.curr_row s.curr_letter).ch = (c : Int) ∧
      ((add_char_to_table wordle_h secret s c).table s.curr_row s.curr_letter).state
        = INCORRECT) := by
  have hinv : ∀ r k, s.curr_row ≤ r → r < wordle_h.NUM_TRIES → k < wordle_h.WORD_LENGTH →
      (s.table r k).state = INCORRECT := by
    apply feed_on_board_invariant wordle_h secret
      (fun s => ∀ r k, s.curr_row ≤ r → r < wordle_h.NUM_TRIES → k < wordle_h.WORD_LENGTH →
        (s.table r k).state = INCORRECT)
      (fun _ => True) _ keys (fun _ _ => trivial) (boot wordle_h) _ s hrun
    · intro s c _ hs _ r k hr1 hr2 hk
      have hrow := (add_char_to_table_cursor secret s c).2.1
      rw [hrow] at hr1
      rw [add_char_to_table_states]
      split
      · rename_i hh
        rw [if_pos ⟨hh.1, hh.2.1⟩] at hr1
        omega
      · apply hs r k _ hr2 hk
        split at hr1 <;> omega
    · intro r k _ hr hk
      rw [boot_grid r k hr hk]
  refine ⟨hinv, ?_⟩
  intro c hc hrow hcol
  have h127 : ¬ c = 127 := by unfold is_letter at hc; omega
  have h13 : ¬ c = 13 := by unfold is_letter at hc; omega
  have h32 : ¬ c = 32 := by unfold is_letter at hc; omega
  have hl : ¬ s.curr_letter = wordle_h.WORD_LENGTH := by omega
  constructor
  · rw [add_char_to_table_chars, if_neg (fun hh => h127 hh.1),
      if_pos ⟨h127, h13, h32, hl, rfl, rfl⟩]
  · rw [add_char_to_table_states, if_neg (fun hh => h13 hh.1)]
    exact hinv _ _ (le_refl _) hrow hcol

/-- Byte `j` of the word `le_bytes l` is element `j` of `l` (zero past the end). -/
theorem le_bytes_byte (l : List Nat) (hl : ∀ b ∈ l, b < 256) (j : Nat) :
    (le_bytes l / 256 ^ j) % 256 = l.getD j 0 := by
  induction l generalizing j with
  | nil => simp [le_bytes]
  | cons b bs ih =>
    have hb := hl b (List.mem_cons_self _ _)
    have ih2 := ih (fun x hx => hl x (List.mem_cons_of_mem _ hx))
    cases j with
    | zero =>
      simp only [le_bytes, pow_zero, Nat.div_one, List.getD_cons_zero]
      omega
    | succ j =>
      have e : (b + 256 * le_bytes bs) / 256 ^ (j + 1) = le_bytes bs / 256 ^ j := by
        rw [pow_succ, Nat.mul_comm (256 ^ j) 256, ← Nat.div_div_eq_div_mul]
        congr 1
        omega
      simp only [le_bytes, e, List.getD_cons_succ]
      exact ih2 j

/-- The row-fill invariant on the board, for keystroke bytes below 0x80: the column is at
most `WORD_LENGTH`; in the grid, cells of submitted rows and cells of the current row
before the cursor hold a byte below 0x80, all other cells are empty. -/
theorem row_fill_cells_on_board (secret keys : List Nat) (hkeys : ∀ c ∈ keys, c < 128)
    (s : Client) (hrun : feed_on_board wordle_h secret (boot wordle_h) keys = some s) :
    s.curr_letter ≤ wordle_h.WORD_LENGTH ∧
    ∀ r k, r < wordle_h.NUM_TRIES → k < wordle_h.WORD_LENGTH →
      (r < s.curr_row ∨ (r = s.curr_row ∧ k < s.curr_letter) →
        0 ≤ (s.table r k).ch ∧ (s.table r k).ch < 128) ∧
      (s.curr_row < r ∨ (r = s.curr_row ∧ s.curr_letter ≤ k) →
        (s.table r k).ch = INVALID_CHAR) := by
  apply feed_on_board_invariant wordle_h secret
    (fun s => s.curr_letter ≤ wordle_h.WORD_LENGTH ∧
      ∀ r k, r < wordle_h.NUM_TRIES → k < wordle_h.WORD_LENGTH →
        (r < s.curr_row ∨ (r = s.curr_row ∧ k < s.curr_letter) →
          0 ≤ (s.table r k).ch ∧ (s.table r k).ch < 128) ∧
        (s.curr_row < r ∨ (r = s.curr_row ∧ s.curr_letter ≤ k) →
          (s.table r k).ch = INVALID_CHAR))
    (fun c => c < 128) _ keys hkeys (boot wordle_h) _ s hrun
  · intro s c hc hs _
    obtain ⟨hs1, hs2⟩ := hs
    obtain ⟨hch, _, hsr, _, _⟩ :=
      wordle_server_send_one_slot wordle_h rfl rfl (by decide) (by decide) secret s
    have hW : wordle_h.WORD_LENGTH = 5 := rfl
    rw [hW] at hs1
    rcases add_char_to_table_cases wordle_h secret s c with
      ⟨_, h2, e⟩ | ⟨_, _, _, h4, e⟩ | ⟨_, h2, e⟩ | ⟨_, _, _, e⟩
    · rw [e]
      refine ⟨by show s.curr_letter - 1 ≤ 5; omega, ?_⟩
      intro r k hr hk
      obtain ⟨ha, hb⟩ := hs2 r k hr hk
      show (r < s.curr_row ∨ (r = s.curr_row ∧ k < s.curr_letter - 1) →
          0 ≤ (set_ch s.table s.curr_row (s.curr_letter - 1) INVALID_CHAR r k).ch ∧
          (set_ch s.table s.curr_row (s.curr_letter - 1) INVALID_CHAR r k).ch < 128) ∧
        (s.curr_row < r ∨ (r = s.curr_row ∧ s.curr_letter - 1 ≤ k) →
          (set_ch s.table s.curr_row (s.curr_letter - 1) INVALID_CHAR r k).ch = INVALID_CHAR)
      rw [set_ch_ch]
      by_cases hcell : r = s.curr_row ∧ k = s.curr_letter - 1
      · rw [if_pos hcell]
        exact ⟨fun hh => by omega, fun _ => rfl⟩
      · rw [if_neg hcell]
        exact ⟨fun hh => ha (by omega), fun hh => hb (by omega)⟩
    · rw [hW] at h4
      rw [e]
      refine ⟨by show s.curr_letter + 1 ≤ 5; omega, ?_⟩
      intro r k hr hk
      obtain ⟨ha, hb⟩ := hs2 r k hr hk
      show (r < s.curr_row ∨ (r = s.curr_row ∧ k < s.curr_letter + 1) →
          0 ≤ (set_ch s.table s.curr_row s.curr_letter (c : Int) r k).ch ∧
          (set_ch s.table s.curr_row s.curr_letter (c : Int) r k).ch < 128) ∧
        (s.curr_row < r ∨ (r = s.curr_row ∧ s.curr_letter + 1 ≤ k) →
          (set_ch s.table s.curr_row s.curr_letter (c : Int) r k).ch = INVALID_CHAR)
      rw [set_ch_ch]
      by_cases hcell : r = s.curr_row ∧ k = s.curr_letter
      · rw [if_pos hcell]
        exact ⟨fun _ => by omega, fun hh => by omega⟩
      · rw [if_neg hcell]
        exact ⟨fun hh => ha (by omega), fun hh => hb (by omega)⟩
    · rw [hW] at h2
      rw [e]
      refine ⟨Nat.zero_le _, ?_⟩
      intro r k hr hk
      obtain ⟨ha, hb⟩ := hs2 r k hr hk
      have hk5 : k < 5 := hk
      show (r < (wordle_server_send wordle_h secret s).curr_row + 1 ∨
            (r = (wordle_server_send wordle_h secret s).curr_row + 1 ∧ k < 0) →
          0 ≤ ((wordle_server_send wordle_h secret s).table r k).ch ∧
          ((wordle_server_send wordle_h secret s).table r k).ch < 128) ∧
        ((wordle_server_send wordle_h secret s).curr_row + 1 < r ∨
            (r = (wordle_server_send wordle_h secret s).curr_row + 1 ∧ 0 ≤ k) →
          ((wordle_server_send wordle_h secret s).table r k).ch = INVALID_CHAR)
      rw [hch, hsr]
      exact ⟨fun hh => ha (by omega), fun hh => hb (by omega)⟩
    · rw [e]
      exact ⟨hs1, hs2⟩
  · refine ⟨by decide, ?_⟩
    intro r k hr hk
    have h0r : (boot wordle_h).curr_row = 0 := rfl
    have h0l : (boot wordle_h).curr_letter = 0 := rfl
    rw [boot_grid r k hr hk, h0r, h0l]
    constructor
    · intro hh
      omega
    · intro _
      rfl

/-- While the run stays on the board and the keystroke bytes are below 0x80, with
`curr_row < NUM_TRIES`: cell `j` of the current row is non-empty exactly when
`j < curr_letter`, every row after the current one is entirely empty, every row before it
is entirely non-empty, and on a full row every byte of the register the packing loop of
`wordle_server_send` writes is the character of its cell, never the empty sentinel. -/
theorem row_fill_on_board (secret keys : List Nat) (hkeys : ∀ c ∈ keys, c < 128)
    (s : Client) (hrun : feed_on_board wordle_h secret (boot wordle_h) keys = some s)
    (hrow : s.curr_row < wordle_h.NUM_TRIES) :
    (∀ j, j < wordle_h.WORD_LENGTH →
      ((s.table s.curr_row j).ch ≠ INVALID_CHAR ↔ j < s.curr_letter)) ∧
    (∀ r j, s.curr_row < r → r < wordle_h.NUM_TRIES → j < wordle_h.WORD_LENGTH →
      (s.table r j).ch = INVALID_CHAR) ∧
    (∀ r j, r < s.curr_row → j < wordle_h.WORD_LENGTH → (s.table r j).ch ≠ INVALID_CHAR) ∧
    (s.curr_letter = wordle_h.WORD_LENGTH → ∀ j, j < wordle_h.WORD_LENGTH →
      ((send_loop wordle_h (fun i => (s.table s.curr_row i).ch) s.m
          wordle_h.WORD_LENGTH).m.regs 0 / 256 ^ j) % 256
        = to_char (s.table s.curr_row j).ch ∧
      to_char (s.table s.curr_row j).ch ≠ to_char INVALID_CHAR) := by
  obtain ⟨_, hfill⟩ := row_fill_cells_on_board secret keys hkeys s hrun
  refine ⟨?_, ?_, ?_, ?_⟩
  · intro j hj
    obtain ⟨ha, hb⟩ := hfill _ j hrow hj
    unfold INVALID_CHAR at hb ⊢
    constructor
    · intro hne
      by_contra hlt
      exact hne (hb (Or.inr ⟨rfl, by omega⟩))
    · intro hlt
      have := ha (Or.inr ⟨rfl, hlt⟩)
      omega
  · intro r j hr1 hr2 hj
    exact (hfill r j hr2 hj).2 (Or.inl hr1)
  · intro r j hr hj
    have := (hfill r j (by omega) hj).1 (Or.inl hr)
    unfold INVALID_CHAR
    omega
  · intro hfull j hj
    have hcell := (hfill _ j hrow hj).1 (Or.inr ⟨rfl, by omega⟩)
    obtain ⟨_, hpr, _⟩ := send_loop_full wordle_h rfl rfl
      (fun i => (s.table s.curr_row i).ch) s.m (by decide) (by decide)
    have hreg := hpr 0
    rw [if_pos (by decide)] at hreg
    have hj5 : j < 5 := hj
    constructor
    · rw [hreg]
      unfold frame_slot slot_bytes
      rw [le_bytes_byte _ (by
        intro b hbm
        obtain ⟨x, _, rfl⟩ := List.mem_map.mp hbm
        exact to_char_lt _)]
      interval_cases j <;> rfl
    · unfold to_char INVALID_CHAR
      omega

end Wordle
